import Mathlib

/-!
Verification of the pg_ivm scheduler (src/pg_ivm.c) against its natural-language
specification.

The shallow embedding below follows the source file:

* `QueryTableEntry`, `ScheduleState` embed the shared query registry and the
  schedule state (spec section 3); the shared hash table `queryHashTable` and the
  struct `schedule_state` are merged into one record because every access to
  either happens under the single LWLock `schedule_state->lock`.
* `lockTables` / `lockAll` embed the nested lock-acquisition loops of
  `pg_hook_execution_start` (pg_ivm.c lines 655-701): skip when
  `LockHeldByMe`, `ConditionalLockRelationOid` otherwise, and on failure release
  the bitmapset `newlyLocked` and give up.
* `pg_hook_execution_start`, `pg_hook_executor_run`, `pg_hook_process_utility`
  embed the corresponding hook functions; the backend-local statics
  (`nesting_level`, `full_process`, `isUtility`) live in `BackendState`.
* `Step` is the transition system whose transitions are exactly the critical
  sections of the hooks (each runs while holding `schedule_state->lock`,
  so each is atomic); `Reachable` are the states observable outside a critical
  section.
* `Reschedule`, `LogQuery` and `RemoveLoggedQuery` are implemented in a file of
  this repository that is not part of src/ (only their callers are); they are
  modelled from the spec, see their doc comments.
-/

/-- Status of a registered query; spec section 4.2 (the source constants
`QUERY_WAITING`, `QUERY_AVAILABLE`, `QUERY_RUNNING`, `QUERY_GIVE_UP` are declared
in pg_ivm.h, outside src/; the set of states is fixed by spec section 3). -/
inductive QueryStatus
  | waiting
  | available
  | running
  | giveUp
deriving DecidableEq

/-- Local control point of a backend inside the execution bracket:
`polling` while in the wait/lock-acquisition loop of `pg_hook_execution_start`
(lines 629-694), `execing` from the successful end of `pg_hook_execution_start`
until the cleanup in `pg_hook_executor_run`. -/
inductive Phase
  | polling
  | execing
deriving DecidableEq

/-- One record of the shared query table (source struct `QueryTableEntry`):
key (source `QueryTableKey`), `status`, the affected-table array
`affected_tables` (modelled as a list, dropping the 0-terminated fixed array
representation), and the arrival order used by the admission algorithm
(spec section 3). The `phase` field records the owning backend's control
point in the bracket; it is not shared data, but carrying it in the record
lets the transition system speak about which queries are mid-execution. -/
structure QueryTableEntry where
  key : Nat
  status : QueryStatus
  arrivalOrder : Nat
  affected_tables : List Nat
  phase : Phase
deriving DecidableEq

/-- The shared scheduler state: `runningQuery` (source
`schedule_state->runningQuery`), the registry entries (source `queryHashTable`),
the lock manager's table-lock ownership (source: PostgreSQL lock manager,
queried through `LockHeldByMe` / `ConditionalLockRelationOid` /
`UnlockRelationOid`; `lockOwner t = some q` means backend `q` holds the
ExclusiveLock on table `t`), and the next arrival sequence number. -/
structure ScheduleState where
  runningQuery : Int
  entries : List QueryTableEntry
  lockOwner : Nat → Option Nat
  nextArrival : Nat

/-- Backend-local static variables of pg_ivm.c: `nesting_level` (line 66),
`full_process` (line 75), `isUtility` (line 81), plus the ambient
`IsParallelWorker()` predicate of this backend. -/
structure BackendState where
  nesting_level : Int
  full_process : Int
  isUtility : Bool
  isParallelWorker : Bool
deriving DecidableEq

/-- Source line 46: `#define enable_enforce(level)
(!IsParallelWorker() && (level) == 0 && !isUtility)`. -/
def enable_enforce (isParallelWorker : Bool) (level : Int) (isUtilityFlag : Bool) : Bool :=
  !isParallelWorker && (level == 0) && !isUtilityFlag

/-- Executor flag bit (PostgreSQL executor.h, external). -/
def EXEC_FLAG_EXPLAIN_ONLY : Nat := 1

/-- Executor flag bit (PostgreSQL executor.h, external). -/
def EXEC_FLAG_EXPLAIN_GENERIC : Nat := 2

/-- Hash-table lookup of the entry registered under `k`
(source `hash_search(queryHashTable, ...)`). -/
def findEntry (k : Nat) (es : List QueryTableEntry) : Option QueryTableEntry :=
  es.find? (fun e => e.key == k)

/-- Write the status of the entry registered under `k`
(source `query_entry->status = ...`, performed under the shared lock). -/
def setStatus (k : Nat) (st : QueryStatus) (es : List QueryTableEntry) :
    List QueryTableEntry :=
  es.map (fun e => if e.key = k then { e with status := st } else e)

/-- Mark the entry registered under `k` as being in phase `ph`. -/
def setPhase (k : Nat) (ph : Phase) (es : List QueryTableEntry) :
    List QueryTableEntry :=
  es.map (fun e => if e.key = k then { e with phase := ph } else e)

/-- Number of registry entries whose status is `available`. -/
def countAvailable (es : List QueryTableEntry) : Nat :=
  (es.filter (fun e => e.status = QueryStatus.available)).length

/-- Modelled from the spec: first half of the `Reschedule` algorithm
(querysched.c, not under src/). Spec section 4.2: "GaveUp is not itself a
resting state: it is cleared back to Waiting by the next reschedule pass". -/
def clearGiveUps (es : List QueryTableEntry) : List QueryTableEntry :=
  es.map (fun e => if e.status = QueryStatus.giveUp
                   then { e with status := QueryStatus.waiting } else e)

/-- Modelled from the spec: second half of the `Reschedule` algorithm
(querysched.c, not under src/). Spec section 4.2 steps 1-2: if
`runningCount >= MaxConcurrentQueries` leave all Waiting records as-is;
otherwise select Waiting records in ascending arrival order (registration
appends, so the registry list is in arrival order) and transition enough of
them to Available to bring the count up to the cap, the count moving with each
admission. Returns the updated entries and updated running counter. -/
def admissionPass (cap : Nat) : Int → List QueryTableEntry → List QueryTableEntry × Int
  | running, [] => ([], running)
  | running, e :: rest =>
    if e.status = QueryStatus.waiting ∧ running < (cap : Int) then
      let p := admissionPass cap (running + 1) rest
      ({ e with status := QueryStatus.available } :: p.1, p.2)
    else
      let p := admissionPass cap running rest
      (e :: p.1, p.2)

/-- Modelled from the spec: `Reschedule(queryHashTable, schedule_state)`
(querysched.c, not under src/), the Admission/Reschedule Algorithm of spec
section 4.2: clear GaveUp records back to Waiting, then admit Waiting records
in arrival order up to the concurrency cap `cap` (= `MAX_CONCURRENT_QUERY`
from conf.h). A pure transition on the registry and counters, executed under
the shared lock. -/
def Reschedule (cap : Nat) (s : ScheduleState) : ScheduleState :=
  let p := admissionPass cap s.runningQuery (clearGiveUps s.entries)
  { s with entries := p.1, runningQuery := p.2 }

/-- Modelled from the spec: `LogQuery(queryHashTable, schedule_state, ...)`
(querysched.c, not under src/), the `register` operation of spec section 4.1:
on success the record starts in Waiting and receives the next arrival order.
(The CapacityExceeded error paths of section 4.1 are outside the modelled
fragment; no claim depends on them.) -/
def LogQuery (k : Nat) (affected : List Nat) (s : ScheduleState) : ScheduleState :=
  { s with
    entries := s.entries ++
      [{ key := k, status := QueryStatus.waiting, arrivalOrder := s.nextArrival,
         affected_tables := affected, phase := Phase.polling }],
    nextArrival := s.nextArrival + 1 }

/-- Modelled from the spec: `RemoveLoggedQuery(queryDesc, queryHashTable,
schedule_state)` (querysched.c, not under src/), the `deregister` operation of
spec section 4.1: "removes the record; no-op if already absent (idempotent)". -/
def RemoveLoggedQuery (k : Nat) (s : ScheduleState) : ScheduleState :=
  { s with entries := s.entries.filter (fun e => e.key ≠ k) }

/-- Result of one pass of the lock-acquisition loop: either all needed locks
are held (`newly` lists the tables locked in this pass, the discarded
bitmapset `newlyLocked`), or the pass retreated, the resulting lock-manager
state having released every lock taken in the pass. -/
inductive PassResult
  | success (newly : List Nat) (owner : Nat → Option Nat)
  | retreat (owner : Nat → Option Nat)

/-- Lock-manager effect of a successful `ConditionalLockRelationOid(t,
ExclusiveLock)` by backend `q` (external interface, spec section 6). -/
def lockAcquire (q t : Nat) (owner : Nat → Option Nat) : Nat → Option Nat :=
  fun u => if u = t then some q else owner u

/-- Lock-manager effect of the release loop of pg_ivm.c lines 678-682:
`UnlockRelationOid` on every member of the `newlyLocked` bitmapset. -/
def releaseAll (newly : List Nat) (owner : Nat → Option Nat) : Nat → Option Nat :=
  fun t => if t ∈ newly then none else owner t

/-- Inner loop of `pg_hook_execution_start` (pg_ivm.c lines 664-693), over the
base tables `refed_immv->refed_table[j]` of one affected table: if
`LockHeldByMe(&tag, ExclusiveLock)` then continue; else if
`ConditionalLockRelationOid(..., ExclusiveLock)` succeeds, add the table to
`newlyLocked`; else release every member of `newlyLocked` and retreat.
`ConditionalLockRelationOid` succeeds exactly when no other backend holds a
conflicting lock, i.e. when the table is free (self-held is handled by the
preceding `LockHeldByMe` branch). -/
def lockTables (q : Nat) : List Nat → List Nat → (Nat → Option Nat) → PassResult
  | [], newly, owner => PassResult.success newly owner
  | t :: rest, newly, owner =>
    if owner t = some q then
      lockTables q rest newly owner
    else if owner t = none then
      lockTables q rest (t :: newly) (lockAcquire q t owner)
    else
      PassResult.retreat (releaseAll newly owner)

/-- Outer loop of `pg_hook_execution_start` (pg_ivm.c lines 657-694), over
`query_entry->affected_tables[i]`: `getRefrenceImmv` (the external, read-only
Dependency Index of spec section 2) yields the referenced base tables of one
affected table, or none (`refed_immv == NULL`), in which case the table is
skipped (`continue`). -/
def lockAll (q : Nat) (depIdx : Nat → Option (List Nat)) :
    List Nat → List Nat → (Nat → Option Nat) → PassResult
  | [], newly, owner => PassResult.success newly owner
  | a :: rest, newly, owner =>
    match depIdx a with
    | none => lockAll q depIdx rest newly owner
    | some ts =>
      match lockTables q ts newly owner with
      | PassResult.success newly' owner' => lockAll q depIdx rest newly' owner'
      | PassResult.retreat owner' => PassResult.retreat owner'

/-- The transitive base-table dependency set of a query: the union (with the
source's iteration order) of the Dependency Index entries of its affected
tables. -/
def flatDeps (depIdx : Nat → Option (List Nat)) : List Nat → List Nat
  | [] => []
  | a :: rest => ((depIdx a).getD []) ++ flatDeps depIdx rest

/-- Critical section of the registration part of `pg_hook_execution_start`
(pg_ivm.c lines 617-627): under the shared lock, `LogQuery` then `Reschedule`.
The freshness test models the key construction of `LogQuery` (derived from the
owning backend and a sequence, never reused while the record is live,
spec section 3); a duplicate registration is a no-op here. -/
def registerApply (cap : Nat) (k : Nat) (affected : List Nat) (s : ScheduleState) :
    ScheduleState :=
  if ∀ e ∈ s.entries, e.key ≠ k then Reschedule cap (LogQuery k affected s) else s

/-- One iteration of the wait loop of `pg_hook_execution_start` (pg_ivm.c
lines 630-653): read `status` and `runningQuery` under the shared lock; if no
query is running and this query is not available, trigger a `Reschedule` to
wake it up; otherwise the iteration changes nothing (the backend either exits
the loop on `QUERY_AVAILABLE` or sleeps 30 microseconds and retries). -/
def pollApply (cap : Nat) (k : Nat) (s : ScheduleState) : ScheduleState :=
  match findEntry k s.entries with
  | none => s
  | some e =>
    if s.runningQuery = 0 ∧ e.status ≠ QueryStatus.available then Reschedule cap s else s

/-- The lock-acquisition attempt of `pg_hook_execution_start` after the wait
loop exits on `QUERY_AVAILABLE` (pg_ivm.c lines 655-701): run the nested
locking loops; on success the backend proceeds to execution holding all locks
(phase `execing`; the source writes no status here); on failure the critical
section of lines 686-690 runs: `status = QUERY_GIVE_UP`, `runningQuery--`,
`Reschedule`, and control returns to the wait loop (`goto waiting`), the
phase staying `polling`. -/
def lockApply (cap : Nat) (depIdx : Nat → Option (List Nat)) (k : Nat)
    (s : ScheduleState) : ScheduleState :=
  match findEntry k s.entries with
  | none => s
  | some e =>
    if e.status = QueryStatus.available ∧ e.phase = Phase.polling then
      match lockAll k depIdx e.affected_tables [] s.lockOwner with
      | PassResult.success _ owner' =>
        { s with lockOwner := owner', entries := setPhase k Phase.execing s.entries }
      | PassResult.retreat owner' =>
        Reschedule cap
          { runningQuery := s.runningQuery - 1,
            entries := setStatus k QueryStatus.giveUp s.entries,
            lockOwner := owner', nextArrival := s.nextArrival }
    else s

/-- Cleanup critical section of `pg_hook_executor_run` (pg_ivm.c lines 722-728
on error, 740-748 on normal completion; both decrement `runningQuery`, call
`RemoveLoggedQuery`, and call `Reschedule` under the shared lock). The guard
`phase = execing` renders the backend-local `full_process` credit: the
cleanup runs exactly when this backend is inside the bracket of an enforced
`ExecutorStart` (see `pg_hook_executor_run` below for the per-backend
embedding of the `full_process` test itself). -/
def finishApply (cap : Nat) (k : Nat) (s : ScheduleState) : ScheduleState :=
  match findEntry k s.entries with
  | none => s
  | some e =>
    if e.phase = Phase.execing then
      Reschedule cap
        { RemoveLoggedQuery k s with runningQuery := s.runningQuery - 1 }
    else s

/-- Transaction end of backend `k`: the PostgreSQL lock manager (external)
releases every relation lock the backend holds. The hooks of src/ release no
locks at query end, so this is the only release outside a retreat; it happens
after the bracket's cleanup has deregistered the query. -/
def xactEndApply (k : Nat) (s : ScheduleState) : ScheduleState :=
  if ∀ e ∈ s.entries, e.key ≠ k then
    { s with lockOwner := fun t => if s.lockOwner t = some k then none else s.lockOwner t }
  else s

/-- The scheduler as a transition system over the shared state: each
constructor is one critical section of the hooks (atomic, since every one of
them runs while holding `schedule_state->lock`), performed by the backend
executing query `k`; `xactEnd` is the lock manager's transaction-end release. -/
inductive Step (cap : Nat) (depIdx : Nat → Option (List Nat)) :
    ScheduleState → ScheduleState → Prop
  | register (s : ScheduleState) (k : Nat) (affected : List Nat) :
      Step cap depIdx s (registerApply cap k affected s)
  | poll (s : ScheduleState) (k : Nat) :
      Step cap depIdx s (pollApply cap k s)
  | lockAttempt (s : ScheduleState) (k : Nat) :
      Step cap depIdx s (lockApply cap depIdx k s)
  | finish (s : ScheduleState) (k : Nat) :
      Step cap depIdx s (finishApply cap k s)
  | xactEnd (s : ScheduleState) (k : Nat) :
      Step cap depIdx s (xactEndApply k s)

/-- Shared-memory state right after `pg_hook_shmem_startup`: empty registry,
zero running queries, no relation locks held. -/
def initState : ScheduleState :=
  { runningQuery := 0, entries := [], lockOwner := fun _ => none, nextArrival := 0 }

/-- States observable outside a critical section: everything reachable from
the initialized shared memory by critical sections of the hooks. -/
def Reachable (cap : Nat) (depIdx : Nat → Option (List Nat)) (s : ScheduleState) : Prop :=
  Relation.ReflTransGen (Step cap depIdx) initState s

/-- Embedding of `pg_hook_execution_start` up to its first lock release
(pg_ivm.c lines 595-627): after `standard_ExecutorStart`, return immediately
when the source text is empty, when `eflags` has `EXEC_FLAG_EXPLAIN_GENERIC`
or `EXEC_FLAG_EXPLAIN_ONLY` set, or when `enable_enforce(nesting_level)` is
false; otherwise `full_process++` and the registration critical section.
The subsequent wait loop and lock acquisition are the `poll` and
`lockAttempt` transitions of `Step`. -/
def pg_hook_execution_start (cap : Nat) (sourceText : String) (eflags : Nat)
    (k : Nat) (affected : List Nat) (b : BackendState) (s : ScheduleState) :
    BackendState × ScheduleState :=
  if sourceText = "" ∨
     eflags &&& (EXEC_FLAG_EXPLAIN_GENERIC ||| EXEC_FLAG_EXPLAIN_ONLY) ≠ 0 ∨
     enable_enforce b.isParallelWorker b.nesting_level b.isUtility = false then
    (b, s)
  else
    ({ b with full_process := b.full_process + 1 }, registerApply cap k affected s)

/-- Embedding of `pg_hook_executor_run` (pg_ivm.c lines 703-750).
`bodyFails` says whether the wrapped execution
(`standard_ExecutorRun`) raises an error; the returned Bool is whether an
error propagates out of the hook (`PG_RE_THROW`). The wrapped execution is
net-neutral on the backend statics: nested hooks restore `nesting_level`,
nested `ExecutorStart` calls see `nesting_level >= 1` so never touch
`full_process`, and `pg_hook_process_utility` restores `isUtility`.
On the error path the source decrements `runningQuery` before
`RemoveLoggedQuery`; on the normal path after it; both under the shared lock,
and in both paths the cleanup runs only if the source text is nonempty,
`enable_enforce(nesting_level)` holds after the decrement of `nesting_level`,
and `full_process` is nonzero, in which case `full_process--` first. -/
def pg_hook_executor_run (cap : Nat) (sourceText : String) (k : Nat)
    (bodyFails : Bool) (b : BackendState) (s : ScheduleState) :
    BackendState × ScheduleState × Bool :=
  let b1 : BackendState := { b with nesting_level := b.nesting_level + 1 }
  let b2 : BackendState := { b1 with nesting_level := b1.nesting_level - 1 }
  if bodyFails then
    if ¬sourceText = "" ∧
       enable_enforce b2.isParallelWorker b2.nesting_level b2.isUtility = true ∧
       b2.full_process ≠ 0 then
      let s1 : ScheduleState := { s with runningQuery := s.runningQuery - 1 }
      let s2 : ScheduleState := RemoveLoggedQuery k s1
      ({ b2 with full_process := b2.full_process - 1 }, Reschedule cap s2, true)
    else (b2, s, true)
  else
    if ¬sourceText = "" ∧
       enable_enforce b2.isParallelWorker b2.nesting_level b2.isUtility = true ∧
       b2.full_process ≠ 0 then
      let s1 : ScheduleState := RemoveLoggedQuery k s
      let s2 : ScheduleState := { s1 with runningQuery := s1.runningQuery - 1 }
      ({ b2 with full_process := b2.full_process - 1 }, Reschedule cap s2, false)
    else (b2, s, false)

/-- Embedding of `pg_hook_process_utility` (pg_ivm.c lines 786-818):
`isUtility = true`, run the wrapped utility command (`body`, which may mutate
the backend statics and may raise, signalled by its Bool result), then
`PG_FINALLY` restores `isUtility = false` on both the normal and the error
exit before any error is re-thrown. -/
def pg_hook_process_utility (body : BackendState → BackendState × Bool)
    (b : BackendState) : BackendState × Bool :=
  let p := body { b with isUtility := true }
  ({ p.1 with isUtility := false }, p.2)

/-- The inductive invariant of the shared state, established at shared-memory
initialization and preserved by every critical section: `runningQuery` counts
exactly the admitted (Available) records; the count respects the concurrency
cap; registered keys are unique; no record ever carries the transient
`running` status (admission marks records Available, the actual running window
is the `execing` phase); and a query that is mid-execution was admitted and
holds the exclusive lock on every table of its transitive dependency set. -/
structure SchedInv (cap : Nat) (depIdx : Nat → Option (List Nat)) (s : ScheduleState) : Prop where
  running_eq : s.runningQuery = (countAvailable s.entries : Int)
  le_cap : countAvailable s.entries ≤ cap
  nodupKeys : (s.entries.map (fun e => e.key)).Nodup
  noStatusRunning : ∀ e ∈ s.entries, e.status ≠ QueryStatus.running
  execLocks : ∀ e ∈ s.entries, e.phase = Phase.execing →
    e.status = QueryStatus.available ∧
    ∀ t ∈ flatDeps depIdx e.affected_tables, s.lockOwner t = some e.key

/-- Relation between the lock-manager state `owner` at some point inside a
lock-acquisition pass of backend `q`, the accumulated `newlyLocked` set
`newly`, and the lock-manager state `ownerStart` at the start of the pass:
every table in `newly` was free at the start and is now held by `q`, and
every other table is untouched. -/
def OwnerInv (q : Nat) (newly : List Nat) (owner ownerStart : Nat → Option Nat) : Prop :=
  ∀ t, (t ∈ newly → owner t = some q ∧ ownerStart t = none) ∧
       (t ∉ newly → owner t = ownerStart t)

/-- Concrete Dependency Index used by the evaluation witnesses: the affected
table 10 feeds an IMMV whose base-table set is the single table 5. -/
def depIdxW : Nat → Option (List Nat) := fun a => if a = 10 then some [5] else none

/-- A freshly started backend: top nesting level, no `full_process` credit,
not a utility command, not a parallel worker. -/
def bInit : BackendState :=
  { nesting_level := 0, full_process := 0, isUtility := false, isParallelWorker := false }

/-- Witness trace, step 1: an enforced `ExecutorStart` of query 7 with
affected table 10 against the initial shared state (cap 2). -/
def cexStart : BackendState × ScheduleState :=
  pg_hook_execution_start 2 "q" 0 7 [10] bInit initState

/-- Witness trace, step 2: query 7 was admitted at registration, so the lock
attempt runs and succeeds, leaving backend 7 holding the lock on table 5. -/
def cexLocked : ScheduleState := lockApply 2 depIdxW 7 cexStart.2

/-- Witness trace, step 3: the wrapped execution of query 7 raises an error,
so `pg_hook_executor_run` takes its `PG_CATCH` cleanup path. -/
def cexRun : BackendState × ScheduleState × Bool :=
  pg_hook_executor_run 2 "q" 7 true cexStart.1 cexLocked

/-- Reachable shared state with query 0 mid-execution holding table 5
(register then lock, cap 1), used by the mutual-exclusion witness. -/
def mutexState : ScheduleState := lockApply 1 depIdxW 0 (registerApply 1 0 [10] initState)

/-- The registry record of query 0 in `mutexState`. -/
def mutexEntry : QueryTableEntry :=
  { key := 0, status := QueryStatus.available, arrivalOrder := 0,
    affected_tables := [10], phase := Phase.execing }

/-- Witness state for the retreat path: query 0 is registered and Available
with affected table 10, but another backend (9) already holds the exclusive
lock on the base table 5, so the non-blocking attempt must fail. -/
def retreatState : ScheduleState :=
  { runningQuery := 1,
    entries := [{ key := 0, status := QueryStatus.available, arrivalOrder := 0,
                  affected_tables := [10], phase := Phase.polling }],
    lockOwner := fun t => if t = 5 then some 9 else none,
    nextArrival := 1 }

/-- The registry record of query 0 in `retreatState`. -/
def retreatEntry : QueryTableEntry :=
  { key := 0, status := QueryStatus.available, arrivalOrder := 0,
    affected_tables := [10], phase := Phase.polling }

/-- Witness state for the self-healing rule: the only query (key 3) has given
up and no query is running, so a poll iteration must retrigger admission. -/
def healState : ScheduleState :=
  { runningQuery := 0,
    entries := [{ key := 3, status := QueryStatus.giveUp, arrivalOrder := 0,
                  affected_tables := [10], phase := Phase.polling }],
    lockOwner := fun _ => none,
    nextArrival := 1 }

/-- The registry record of query 3 in `healState`. -/
def healEntry : QueryTableEntry :=
  { key := 3, status := QueryStatus.giveUp, arrivalOrder := 0,
    affected_tables := [10], phase := Phase.polling }

/-- Lock-manager state in which backend 0 itself already holds the exclusive
lock on table 5 (the base table of its dependency set). -/
def selfHeldOwner : Nat → Option Nat := fun t => if t = 5 then some 0 else none

theorem countAvailable_nil : countAvailable [] = 0 := rfl

theorem countAvailable_cons (e : QueryTableEntry) (es : List QueryTableEntry) :
    countAvailable (e :: es) =
      (if e.status = QueryStatus.available then 1 else 0) + countAvailable es := by
  by_cases h : e.status = QueryStatus.available <;>
    simp [countAvailable, List.filter_cons, h, Nat.add_comm]

theorem map_key_map (f : QueryTableEntry → QueryTableEntry)
    (hf : ∀ e, (f e).key = e.key) (es : List QueryTableEntry) :
    (es.map f).map (fun e => e.key) = es.map (fun e => e.key) := by
  induction es with
  | nil => rfl
  | cons e es ih => simp only [List.map_cons, hf, ih]

theorem countAvailable_map (f : QueryTableEntry → QueryTableEntry)
    (hf : ∀ e, (f e).status = e.status) (es : List QueryTableEntry) :
    countAvailable (es.map f) = countAvailable es := by
  induction es with
  | nil => rfl
  | cons e es ih => simp only [List.map_cons, countAvailable_cons, hf, ih]

theorem findEntry_mem {k : Nat} {es : List QueryTableEntry} {e : QueryTableEntry}
    (h : findEntry k es = some e) : e ∈ es ∧ e.key = k := by
  refine ⟨List.mem_of_find?_eq_some h, ?_⟩
  have h2 := List.find?_some h
  simpa using h2

theorem nodup_key_eq {es : List QueryTableEntry}
    (hnd : (es.map (fun e => e.key)).Nodup) {a b : QueryTableEntry}
    (ha : a ∈ es) (hb : b ∈ es) (hk : a.key = b.key) : a = b := by
  induction es with
  | nil => cases ha
  | cons x es ih =>
    simp only [List.map_cons, List.nodup_cons] at hnd
    rcases List.mem_cons.mp ha with rfl | ha' <;> rcases List.mem_cons.mp hb with rfl | hb'
    · rfl
    · exact absurd (hk ▸ List.mem_map_of_mem (fun e => e.key) hb') hnd.1
    · exact absurd (hk ▸ List.mem_map_of_mem (fun e => e.key) ha') hnd.1
    · exact ih hnd.2 ha' hb'

theorem lockTables_nil (q : Nat) (newly : List Nat) (owner : Nat → Option Nat) :
    lockTables q [] newly owner = PassResult.success newly owner := rfl

theorem lockTables_cons (q t₀ : Nat) (rest newly : List Nat) (owner : Nat → Option Nat) :
    lockTables q (t₀ :: rest) newly owner =
      if owner t₀ = some q then lockTables q rest newly owner
      else if owner t₀ = none then
        lockTables q rest (t₀ :: newly) (lockAcquire q t₀ owner)
      else PassResult.retreat (releaseAll newly owner) := rfl

theorem lockAll_nil (q : Nat) (depIdx : Nat → Option (List Nat)) (newly : List Nat)
    (owner : Nat → Option Nat) :
    lockAll q depIdx [] newly owner = PassResult.success newly owner := rfl

theorem lockAll_cons (q a : Nat) (depIdx : Nat → Option (List Nat)) (rest : List Nat)
    (newly : List Nat) (owner : Nat → Option Nat) :
    lockAll q depIdx (a :: rest) newly owner =
      match depIdx a with
      | none => lockAll q depIdx rest newly owner
      | some ts =>
        match lockTables q ts newly owner with
        | PassResult.success newly' owner' => lockAll q depIdx rest newly' owner'
        | PassResult.retreat owner' => PassResult.retreat owner' := rfl

theorem flatDeps_nil (depIdx : Nat → Option (List Nat)) : flatDeps depIdx [] = [] := rfl

theorem flatDeps_cons (depIdx : Nat → Option (List Nat)) (a : Nat) (rest : List Nat) :
    flatDeps depIdx (a :: rest) = ((depIdx a).getD []) ++ flatDeps depIdx rest := rfl

theorem ownerInv_nil (q : Nat) (owner : Nat → Option Nat) : OwnerInv q [] owner owner := by
  intro t
  exact ⟨fun h => absurd h (List.not_mem_nil t), fun _ => rfl⟩

theorem ownerInv_extend {q t₀ : Nat} {newly : List Nat} {owner ownerStart : Nat → Option Nat}
    (hinv : OwnerInv q newly owner ownerStart) (h2 : owner t₀ = none) :
    OwnerInv q (t₀ :: newly) (lockAcquire q t₀ owner) ownerStart := by
  have ht₀ : t₀ ∉ newly := by
    intro hm
    rcases (hinv t₀).1 hm with ⟨hq, _⟩
    rw [h2] at hq
    cases hq
  intro u
  constructor
  · intro hu
    rcases List.mem_cons.mp hu with rfl | hu'
    · refine ⟨by simp [lockAcquire], ?_⟩
      rw [← (hinv u).2 ht₀]
      exact h2
    · rcases (hinv u).1 hu' with ⟨hq, hs⟩
      refine ⟨?_, hs⟩
      by_cases he : u = t₀
      · simp [lockAcquire, he]
      · simpa [lockAcquire, he] using hq
  · intro hu
    have hu1 : u ≠ t₀ := fun h => hu (h ▸ List.mem_cons_self _ _)
    have hu2 : u ∉ newly := fun h => hu (List.mem_cons_of_mem _ h)
    have := (hinv u).2 hu2
    simpa [lockAcquire, hu1] using this

theorem lockTables_retreat_owner (q : Nat) (ts : List Nat) :
    ∀ (newly : List Nat) (owner ownerStart : Nat → Option Nat),
      OwnerInv q newly owner ownerStart →
      ∀ r, lockTables q ts newly owner = PassResult.retreat r → ∀ t, r t = ownerStart t := by
  induction ts with
  | nil =>
    intro newly owner ownerStart _ r hr t
    rw [lockTables_nil] at hr
    cases hr
  | cons t₀ rest ih =>
    intro newly owner ownerStart hinv r hr t
    rw [lockTables_cons] at hr
    by_cases h1 : owner t₀ = some q
    · rw [if_pos h1] at hr
      exact ih newly owner ownerStart hinv r hr t
    · rw [if_neg h1] at hr
      by_cases h2 : owner t₀ = none
      · rw [if_pos h2] at hr
        exact ih (t₀ :: newly) (lockAcquire q t₀ owner) ownerStart
          (ownerInv_extend hinv h2) r hr t
      · rw [if_neg h2] at hr
        cases hr
        by_cases hm : t ∈ newly
        · rcases (hinv t).1 hm with ⟨_, hs⟩
          simp [releaseAll, hm, hs]
        · have := (hinv t).2 hm
          simp [releaseAll, hm, this]

theorem lockTables_success_inv (q : Nat) (ts : List Nat) :
    ∀ (newly : List Nat) (owner ownerStart : Nat → Option Nat),
      OwnerInv q newly owner ownerStart →
      ∀ newly' owner', lockTables q ts newly owner = PassResult.success newly' owner' →
        OwnerInv q newly' owner' ownerStart ∧
        (∀ u ∈ newly, u ∈ newly') ∧
        (∀ u ∈ ts, owner' u = some q) ∧
        (newly.Nodup → newly'.Nodup) := by
  induction ts with
  | nil =>
    intro newly owner ownerStart hinv newly' owner' hs
    rw [lockTables_nil] at hs
    cases hs
    exact ⟨hinv, fun u hu => hu, fun u hu => absurd hu (List.not_mem_nil u),
      fun h => h⟩
  | cons t₀ rest ih =>
    intro newly owner ownerStart hinv newly' owner' hs
    rw [lockTables_cons] at hs
    by_cases h1 : owner t₀ = some q
    · rw [if_pos h1] at hs
      rcases ih newly owner ownerStart hinv newly' owner' hs with ⟨hi, hmono, hts, hnd⟩
      refine ⟨hi, hmono, ?_, hnd⟩
      intro u hu
      rcases List.mem_cons.mp hu with rfl | hu'
      · by_cases hm : u ∈ newly'
        · exact ((hi u).1 hm).1
        · rw [(hi u).2 hm]
          by_cases hm0 : u ∈ newly
          · exact absurd (hmono u hm0) hm
          · rw [← (hinv u).2 hm0]
            exact h1
      · exact hts u hu'
    · rw [if_neg h1] at hs
      by_cases h2 : owner t₀ = none
      · rw [if_pos h2] at hs
        have ht₀ : t₀ ∉ newly := by
          intro hm
          rcases (hinv t₀).1 hm with ⟨hq, _⟩
          rw [h2] at hq
          cases hq
        rcases ih (t₀ :: newly) (lockAcquire q t₀ owner) ownerStart
          (ownerInv_extend hinv h2) newly' owner' hs with ⟨hi, hmono, hts, hnd⟩
        refine ⟨hi, fun u hu => hmono u (List.mem_cons_of_mem _ hu), ?_, ?_⟩
        · intro u hu
          rcases List.mem_cons.mp hu with rfl | hu'
          · exact ((hi u).1 (hmono u (List.mem_cons_self _ _))).1
          · exact hts u hu'
        · intro h
          exact hnd (List.nodup_cons.mpr ⟨ht₀, h⟩)
      · rw [if_neg h2] at hs
        cases hs

theorem lockTables_success_mono (q : Nat) (ts : List Nat) :
    ∀ (newly : List Nat) (owner : Nat → Option Nat) (newly' : List Nat)
      (owner' : Nat → Option Nat),
      lockTables q ts newly owner = PassResult.success newly' owner' →
      ∀ u, owner' u = owner u ∨ owner' u = some q := by
  induction ts with
  | nil =>
    intro newly owner newly' owner' hs u
    rw [lockTables_nil] at hs
    cases hs
    exact Or.inl rfl
  | cons t₀ rest ih =>
    intro newly owner newly' owner' hs u
    rw [lockTables_cons] at hs
    by_cases h1 : owner t₀ = some q
    · rw [if_pos h1] at hs
      exact ih newly owner newly' owner' hs u
    · rw [if_neg h1] at hs
      by_cases h2 : owner t₀ = none
      · rw [if_pos h2] at hs
        rcases ih _ _ _ _ hs u with h | h
        · by_cases he : u = t₀
          · subst he
            rw [h]
            simp [lockAcquire]
          · rw [h]
            left
            simp [lockAcquire, he]
        · exact Or.inr h
      · rw [if_neg h2] at hs
        cases hs

theorem lockTables_success_selfFree (q : Nat) (ts : List Nat) :
    ∀ (newly : List Nat) (owner : Nat → Option Nat),
      (∀ u ∈ ts, owner u = some q ∨ owner u = none) →
      ∃ newly' owner', lockTables q ts newly owner = PassResult.success newly' owner' := by
  induction ts with
  | nil =>
    intro newly owner _
    exact ⟨newly, owner, rfl⟩
  | cons t₀ rest ih =>
    intro newly owner hfree
    rcases hfree t₀ (List.mem_cons_self _ _) with h1 | h2
    · rw [lockTables_cons, if_pos h1]
      exact ih newly owner (fun u hu => hfree u (List.mem_cons_of_mem _ hu))
    · have h1 : ¬owner t₀ = some q := by
        rw [h2]
        simp
      rw [lockTables_cons, if_neg h1, if_pos h2]
      refine ih (t₀ :: newly) (lockAcquire q t₀ owner) ?_
      intro u hu
      by_cases he : u = t₀
      · subst he
        left
        simp [lockAcquire]
      · have := hfree u (List.mem_cons_of_mem _ hu)
        simpa [lockAcquire, he] using this

theorem lockAll_retreat_owner (q : Nat) (depIdx : Nat → Option (List Nat))
    (affected : List Nat) :
    ∀ (newly : List Nat) (owner ownerStart : Nat → Option Nat),
      OwnerInv q newly owner ownerStart →
      ∀ r, lockAll q depIdx affected newly owner = PassResult.retreat r →
        ∀ t, r t = ownerStart t := by
  induction affected with
  | nil =>
    intro newly owner ownerStart _ r hr t
    rw [lockAll_nil] at hr
    cases hr
  | cons a rest ih =>
    intro newly owner ownerStart hinv r hr t
    cases hidx : depIdx a with
    | none =>
      simp only [lockAll_cons, hidx] at hr
      exact ih newly owner ownerStart hinv r hr t
    | some ts =>
      cases hlt : lockTables q ts newly owner with
      | success newly' owner' =>
        simp only [lockAll_cons, hidx, hlt] at hr
        rcases lockTables_success_inv q ts newly owner ownerStart hinv newly' owner' hlt
          with ⟨hi, _, _, _⟩
        exact ih newly' owner' ownerStart hi r hr t
      | retreat owner' =>
        simp only [lockAll_cons, hidx, hlt] at hr
        cases hr
        exact lockTables_retreat_owner q ts newly owner ownerStart hinv _ hlt t

theorem lockAll_success_inv (q : Nat) (depIdx : Nat → Option (List Nat))
    (affected : List Nat) :
    ∀ (newly : List Nat) (owner ownerStart : Nat → Option Nat),
      OwnerInv q newly owner ownerStart →
      ∀ newly' owner', lockAll q depIdx affected newly owner = PassResult.success newly' owner' →
        OwnerInv q newly' owner' ownerStart ∧
        (∀ u ∈ newly, u ∈ newly') ∧
        (∀ u ∈ flatDeps depIdx affected, owner' u = some q) ∧
        (newly.Nodup → newly'.Nodup) := by
  induction affected with
  | nil =>
    intro newly owner ownerStart hinv newly' owner' hs
    rw [lockAll_nil] at hs
    cases hs
    exact ⟨hinv, fun u hu => hu, fun u hu => absurd hu (by simp [flatDeps_nil]),
      fun h => h⟩
  | cons a rest ih =>
    intro newly owner ownerStart hinv newly' owner' hs
    cases hidx : depIdx a with
    | none =>
      simp only [lockAll_cons, hidx] at hs
      rcases ih newly owner ownerStart hinv newly' owner' hs with ⟨hi, hmono, hfd, hnd⟩
      refine ⟨hi, hmono, ?_, hnd⟩
      intro u hu
      rw [flatDeps_cons, hidx] at hu
      simp only [Option.getD_none, List.nil_append] at hu
      exact hfd u hu
    | some ts =>
      cases hlt : lockTables q ts newly owner with
      | success newlyM ownerM =>
        simp only [lockAll_cons, hidx, hlt] at hs
        rcases lockTables_success_inv q ts newly owner ownerStart hinv newlyM ownerM hlt
          with ⟨hiM, hmonoM, htsM, hndM⟩
        rcases ih newlyM ownerM ownerStart hiM newly' owner' hs with ⟨hi, hmono, hfd, hnd⟩
        refine ⟨hi, fun u hu => hmono u (hmonoM u hu), ?_, fun h => hnd (hndM h)⟩
        intro u hu
        rw [flatDeps_cons, hidx] at hu
        simp only [Option.getD_some] at hu
        rcases List.mem_append.mp hu with hu1 | hu2
        · -- u was locked by the inner pass; ownership persists to the end
          have hM : ownerM u = some q := htsM u hu1
          by_cases hm : u ∈ newly'
          · exact ((hi u).1 hm).1
          · rw [(hi u).2 hm]
            by_cases hmM : u ∈ newlyM
            · exact absurd (hmono u hmM) hm
            · rw [← (hiM u).2 hmM]
              exact hM
        · exact hfd u hu2
      | retreat ownerM =>
        simp only [lockAll_cons, hidx, hlt] at hs
        cases hs

theorem lockAll_success_selfFree (q : Nat) (depIdx : Nat → Option (List Nat))
    (affected : List Nat) :
    ∀ (newly : List Nat) (owner : Nat → Option Nat),
      (∀ u ∈ flatDeps depIdx affected, owner u = some q ∨ owner u = none) →
      ∃ newly' owner', lockAll q depIdx affected newly owner = PassResult.success newly' owner' := by
  induction affected with
  | nil =>
    intro newly owner _
    exact ⟨newly, owner, rfl⟩
  | cons a rest ih =>
    intro newly owner hfree
    cases hidx : depIdx a with
    | none =>
      rw [lockAll_cons, hidx]
      refine ih newly owner ?_
      intro u hu
      refine hfree u ?_
      rw [flatDeps_cons, hidx]
      simpa using hu
    | some ts =>
      have hts : ∀ u ∈ ts, owner u = some q ∨ owner u = none := by
        intro u hu
        refine hfree u ?_
        rw [flatDeps_cons, hidx]
        simp only [Option.getD_some]
        exact List.mem_append.mpr (Or.inl hu)
      rcases lockTables_success_selfFree q ts newly owner hts with ⟨newlyM, ownerM, hlt⟩
      simp only [lockAll_cons, hidx, hlt]
      refine ih newlyM ownerM ?_
      intro u hu
      have hu' : u ∈ flatDeps depIdx (a :: rest) := by
        rw [flatDeps_cons, hidx]
        simp only [Option.getD_some]
        exact List.mem_append.mpr (Or.inr hu)
      rcases lockTables_success_mono q ts newly owner newlyM ownerM hlt u with h | h
      · rw [h]
        exact hfree u hu'
      · exact Or.inl h

theorem admissionPass_nil (cap : Nat) (r : Int) : admissionPass cap r [] = ([], r) := rfl

theorem admissionPass_cons (cap : Nat) (r : Int) (e : QueryTableEntry)
    (es : List QueryTableEntry) :
    admissionPass cap r (e :: es) =
      if e.status = QueryStatus.waiting ∧ r < (cap : Int) then
        ({ e with status := QueryStatus.available } :: (admissionPass cap (r + 1) es).1,
         (admissionPass cap (r + 1) es).2)
      else (e :: (admissionPass cap r es).1, (admissionPass cap r es).2) := rfl

theorem admissionPass_fst_pos (cap : Nat) (r : Int) (e : QueryTableEntry)
    (es : List QueryTableEntry) (hc : e.status = QueryStatus.waiting ∧ r < (cap : Int)) :
    (admissionPass cap r (e :: es)).1 =
      { e with status := QueryStatus.available } :: (admissionPass cap (r + 1) es).1 := by
  rw [admissionPass_cons, if_pos hc]

theorem admissionPass_snd_pos (cap : Nat) (r : Int) (e : QueryTableEntry)
    (es : List QueryTableEntry) (hc : e.status = QueryStatus.waiting ∧ r < (cap : Int)) :
    (admissionPass cap r (e :: es)).2 = (admissionPass cap (r + 1) es).2 := by
  rw [admissionPass_cons, if_pos hc]

theorem admissionPass_fst_neg (cap : Nat) (r : Int) (e : QueryTableEntry)
    (es : List QueryTableEntry) (hc : ¬(e.status = QueryStatus.waiting ∧ r < (cap : Int))) :
    (admissionPass cap r (e :: es)).1 = e :: (admissionPass cap r es).1 := by
  rw [admissionPass_cons, if_neg hc]

theorem admissionPass_snd_neg (cap : Nat) (r : Int) (e : QueryTableEntry)
    (es : List QueryTableEntry) (hc : ¬(e.status = QueryStatus.waiting ∧ r < (cap : Int))) :
    (admissionPass cap r (e :: es)).2 = (admissionPass cap r es).2 := by
  rw [admissionPass_cons, if_neg hc]

theorem admissionPass_count (cap : Nat) (es : List QueryTableEntry) :
    ∀ r : Int, ∃ n : Nat, (admissionPass cap r es).2 = r + n ∧
      countAvailable (admissionPass cap r es).1 = countAvailable es + n := by
  induction es with
  | nil =>
    intro r
    exact ⟨0, by simp [admissionPass_nil], by simp [admissionPass_nil]⟩
  | cons e es ih =>
    intro r
    by_cases hc : e.status = QueryStatus.waiting ∧ r < (cap : Int)
    · rcases ih (r + 1) with ⟨n, h2, h3⟩
      refine ⟨n + 1, ?_, ?_⟩
      · rw [admissionPass_snd_pos cap r e es hc, h2]
        push_cast
        ring
      · rw [admissionPass_fst_pos cap r e es hc, countAvailable_cons, h3,
          countAvailable_cons, hc.1]
        simp
        omega
    · rcases ih r with ⟨n, h2, h3⟩
      refine ⟨n, ?_, ?_⟩
      · rw [admissionPass_snd_neg cap r e es hc, h2]
      · rw [admissionPass_fst_neg cap r e es hc, countAvailable_cons, h3,
          countAvailable_cons]
        omega

theorem admissionPass_le_cap (cap : Nat) (es : List QueryTableEntry) :
    ∀ r : Int, r ≤ (cap : Int) → (admissionPass cap r es).2 ≤ (cap : Int) := by
  induction es with
  | nil =>
    intro r h
    simpa [admissionPass_nil] using h
  | cons e es ih =>
    intro r h
    by_cases hc : e.status = QueryStatus.waiting ∧ r < (cap : Int)
    · rw [admissionPass_snd_pos cap r e es hc]
      exact ih (r + 1) (by omega)
    · rw [admissionPass_snd_neg cap r e es hc]
      exact ih r h

theorem admissionPass_map {α : Type} (f : QueryTableEntry → α)
    (hf : ∀ e, f { e with status := QueryStatus.available } = f e)
    (cap : Nat) (es : List QueryTableEntry) :
    ∀ r : Int, ((admissionPass cap r es).1).map f = es.map f := by
  induction es with
  | nil =>
    intro r
    rfl
  | cons e es ih =>
    intro r
    by_cases hc : e.status = QueryStatus.waiting ∧ r < (cap : Int)
    · rw [admissionPass_fst_pos cap r e es hc]
      simp only [List.map_cons, hf, ih (r + 1)]
    · rw [admissionPass_fst_neg cap r e es hc]
      simp only [List.map_cons, ih r]

theorem admissionPass_mem (cap : Nat) (es : List QueryTableEntry) :
    ∀ (r : Int) (e' : QueryTableEntry), e' ∈ (admissionPass cap r es).1 →
      ∃ e ∈ es, e' = e ∨
        (e.status = QueryStatus.waiting ∧
         e' = { e with status := QueryStatus.available }) := by
  induction es with
  | nil =>
    intro r e' h
    rw [admissionPass_nil] at h
    cases h
  | cons e es ih =>
    intro r e' h
    by_cases hc : e.status = QueryStatus.waiting ∧ r < (cap : Int)
    · rw [admissionPass_fst_pos cap r e es hc] at h
      rcases List.mem_cons.mp h with rfl | h'
      · exact ⟨e, List.mem_cons_self _ _, Or.inr ⟨hc.1, rfl⟩⟩
      · rcases ih (r + 1) e' h' with ⟨x, hx, hd⟩
        exact ⟨x, List.mem_cons_of_mem _ hx, hd⟩
    · rw [admissionPass_fst_neg cap r e es hc] at h
      rcases List.mem_cons.mp h with rfl | h'
      · exact ⟨e', List.mem_cons_self _ _, Or.inl rfl⟩
      · rcases ih r e' h' with ⟨x, hx, hd⟩
        exact ⟨x, List.mem_cons_of_mem _ hx, hd⟩

theorem admissionPass_exists_avail (cap : Nat) (es : List QueryTableEntry) :
    ∀ r : Int, r < (cap : Int) →
      (∃ e ∈ es, e.status = QueryStatus.waiting) →
      ∃ e' ∈ (admissionPass cap r es).1, e'.status = QueryStatus.available := by
  induction es with
  | nil =>
    intro r _ h
    rcases h with ⟨e, he, _⟩
    cases he
  | cons e es ih =>
    intro r hr h
    by_cases hc : e.status = QueryStatus.waiting ∧ r < (cap : Int)
    · rw [admissionPass_fst_pos cap r e es hc]
      exact ⟨{ e with status := QueryStatus.available }, List.mem_cons_self _ _, rfl⟩
    · rw [admissionPass_fst_neg cap r e es hc]
      rcases h with ⟨x, hx, hxs⟩
      rcases List.mem_cons.mp hx with rfl | hx'
      · exact absurd ⟨hxs, hr⟩ hc
      · rcases ih r hr ⟨x, hx', hxs⟩ with ⟨e', he', hs⟩
        exact ⟨e', List.mem_cons_of_mem _ he', hs⟩

theorem clearGiveUps_nil : clearGiveUps [] = [] := rfl

theorem clearGiveUps_cons (e : QueryTableEntry) (es : List QueryTableEntry) :
    clearGiveUps (e :: es) =
      (if e.status = QueryStatus.giveUp then { e with status := QueryStatus.waiting } else e) ::
        clearGiveUps es := rfl

theorem countAvailable_clearGiveUps (es : List QueryTableEntry) :
    countAvailable (clearGiveUps es) = countAvailable es := by
  induction es with
  | nil => rfl
  | cons e es ih =>
    rw [clearGiveUps_cons, countAvailable_cons, countAvailable_cons, ih]
    by_cases h : e.status = QueryStatus.giveUp
    · simp [h]
    · simp [h]

theorem clearGiveUps_map {α : Type} (f : QueryTableEntry → α)
    (hf : ∀ e, f { e with status := QueryStatus.waiting } = f e)
    (es : List QueryTableEntry) :
    (clearGiveUps es).map f = es.map f := by
  induction es with
  | nil => rfl
  | cons e es ih =>
    rw [clearGiveUps_cons]
    by_cases h : e.status = QueryStatus.giveUp
    · simp only [List.map_cons, if_pos h, hf, ih]
    · simp only [List.map_cons, if_neg h, ih]

theorem clearGiveUps_mem (es : List QueryTableEntry) (e' : QueryTableEntry)
    (h : e' ∈ clearGiveUps es) :
    ∃ e ∈ es, e' = e ∨
      (e.status = QueryStatus.giveUp ∧ e' = { e with status := QueryStatus.waiting }) := by
  induction es with
  | nil =>
    rw [clearGiveUps_nil] at h
    cases h
  | cons e es ih =>
    rw [clearGiveUps_cons] at h
    rcases List.mem_cons.mp h with h0 | h'
    · by_cases hg : e.status = QueryStatus.giveUp
      · rw [if_pos hg] at h0
        exact ⟨e, List.mem_cons_self _ _, Or.inr ⟨hg, h0⟩⟩
      · rw [if_neg hg] at h0
        exact ⟨e, List.mem_cons_self _ _, Or.inl h0⟩
    · rcases ih h' with ⟨x, hx, hd⟩
      exact ⟨x, List.mem_cons_of_mem _ hx, hd⟩

theorem clearGiveUps_exists_waiting (es : List QueryTableEntry) (e : QueryTableEntry)
    (he : e ∈ es)
    (h : e.status = QueryStatus.waiting ∨ e.status = QueryStatus.giveUp) :
    ∃ e' ∈ clearGiveUps es, e'.status = QueryStatus.waiting := by
  refine ⟨if e.status = QueryStatus.giveUp then { e with status := QueryStatus.waiting }
          else e, ?_, ?_⟩
  · exact List.mem_map_of_mem _ he
  · rcases h with h | h
    · rw [if_neg (by rw [h]; decide), h]
    · rw [if_pos h]

theorem Reschedule_entries (cap : Nat) (s : ScheduleState) :
    (Reschedule cap s).entries =
      (admissionPass cap s.runningQuery (clearGiveUps s.entries)).1 := rfl

theorem Reschedule_runningQuery (cap : Nat) (s : ScheduleState) :
    (Reschedule cap s).runningQuery =
      (admissionPass cap s.runningQuery (clearGiveUps s.entries)).2 := rfl

theorem Reschedule_lockOwner (cap : Nat) (s : ScheduleState) :
    (Reschedule cap s).lockOwner = s.lockOwner := rfl

theorem Reschedule_nextArrival (cap : Nat) (s : ScheduleState) :
    (Reschedule cap s).nextArrival = s.nextArrival := rfl

theorem Reschedule_mem (cap : Nat) (s : ScheduleState) (e' : QueryTableEntry)
    (h : e' ∈ (Reschedule cap s).entries) :
    ∃ e ∈ s.entries, e'.key = e.key ∧ e'.phase = e.phase ∧
      e'.affected_tables = e.affected_tables ∧
      (e.status = QueryStatus.available → e'.status = QueryStatus.available) ∧
      (e'.status = QueryStatus.running → e.status = QueryStatus.running) := by
  rw [Reschedule_entries] at h
  rcases admissionPass_mem cap _ _ e' h with ⟨m, hm, hd⟩
  rcases clearGiveUps_mem _ m hm with ⟨e, he, hd2⟩
  refine ⟨e, he, ?_⟩
  rcases hd with rfl | ⟨hw, rfl⟩
  · rcases hd2 with rfl | ⟨hg, rfl⟩
    · exact ⟨rfl, rfl, rfl, fun h => h, fun h => h⟩
    · refine ⟨rfl, rfl, rfl, ?_, ?_⟩
      · intro h2
        rw [hg] at h2
        cases h2
      · intro h2
        simp at h2
  · rcases hd2 with rfl | ⟨hg, rfl⟩
    · refine ⟨rfl, rfl, rfl, fun _ => rfl, ?_⟩
      intro h2
      simp at h2
    · refine ⟨rfl, rfl, rfl, fun _ => rfl, ?_⟩
      intro h2
      simp at h2

theorem Reschedule_mapKey (cap : Nat) (s : ScheduleState) :
    ((Reschedule cap s).entries).map (fun e => e.key) =
      s.entries.map (fun e => e.key) := by
  rw [Reschedule_entries,
    admissionPass_map (fun e => e.key) (fun e => rfl) cap _ s.runningQuery,
    clearGiveUps_map (fun e => e.key) (fun e => rfl)]

theorem Reschedule_schedInv {cap : Nat} {depIdx : Nat → Option (List Nat)}
    {s : ScheduleState} (h : SchedInv cap depIdx s) :
    SchedInv cap depIdx (Reschedule cap s) := by
  rcases admissionPass_count cap (clearGiveUps s.entries) s.runningQuery with ⟨n, h2, h3⟩
  have hrun : s.runningQuery = (countAvailable s.entries : Int) := h.running_eq
  constructor
  · rw [Reschedule_runningQuery, Reschedule_entries, h2, h3,
      countAvailable_clearGiveUps, hrun]
    push_cast
    ring
  · have hle : (admissionPass cap s.runningQuery (clearGiveUps s.entries)).2 ≤ (cap : Int) :=
      admissionPass_le_cap cap _ _ (by rw [hrun]; exact_mod_cast h.le_cap)
    rw [h2] at hle
    rw [Reschedule_entries, h3, countAvailable_clearGiveUps]
    omega
  · rw [Reschedule_mapKey]
    exact h.nodupKeys
  · intro e' he' hr
    rcases Reschedule_mem cap s e' he' with ⟨e, he, _, _, _, _, hrun2⟩
    exact h.noStatusRunning e he (hrun2 hr)
  · intro e' he' hph
    rcases Reschedule_mem cap s e' he' with ⟨e, he, hkey, hphase, haff, havail, _⟩
    have he2 := h.execLocks e he (by rw [← hphase]; exact hph)
    refine ⟨havail he2.1, ?_⟩
    intro t ht
    rw [Reschedule_lockOwner, hkey]
    rw [haff] at ht
    exact he2.2 t ht

theorem findEntry_nil (k : Nat) : findEntry k [] = none := rfl

theorem findEntry_cons_self {k : Nat} {e : QueryTableEntry} (es : List QueryTableEntry)
    (h : e.key = k) : findEntry k (e :: es) = some e := by
  simp [findEntry, List.find?_cons, h]

theorem findEntry_cons_ne {k : Nat} {e : QueryTableEntry} (es : List QueryTableEntry)
    (h : ¬e.key = k) : findEntry k (e :: es) = findEntry k es := by
  simp [findEntry, List.find?_cons, h]

theorem setStatus_cons (k : Nat) (st : QueryStatus) (e : QueryTableEntry)
    (es : List QueryTableEntry) :
    setStatus k st (e :: es) =
      (if e.key = k then { e with status := st } else e) :: setStatus k st es := rfl

theorem setStatus_mapKey (k : Nat) (st : QueryStatus) (es : List QueryTableEntry) :
    (setStatus k st es).map (fun e => e.key) = es.map (fun e => e.key) :=
  map_key_map _ (fun e => by by_cases h : e.key = k <;> simp [h]) es

theorem setPhase_mapKey (k : Nat) (ph : Phase) (es : List QueryTableEntry) :
    (setPhase k ph es).map (fun e => e.key) = es.map (fun e => e.key) :=
  map_key_map _ (fun e => by by_cases h : e.key = k <;> simp [h]) es

theorem countAvailable_setPhase (k : Nat) (ph : Phase) (es : List QueryTableEntry) :
    countAvailable (setPhase k ph es) = countAvailable es :=
  countAvailable_map _ (fun e => by by_cases h : e.key = k <;> simp [h]) es

theorem setStatus_mem {k : Nat} {st : QueryStatus} {es : List QueryTableEntry}
    {e' : QueryTableEntry} (h : e' ∈ setStatus k st es) :
    ∃ x ∈ es, (¬x.key = k ∧ e' = x) ∨ (x.key = k ∧ e' = { x with status := st }) := by
  rcases List.mem_map.mp h with ⟨x, hx, hmap⟩
  by_cases hxk : x.key = k
  · exact ⟨x, hx, Or.inr ⟨hxk, by rw [← hmap, if_pos hxk]⟩⟩
  · exact ⟨x, hx, Or.inl ⟨hxk, by rw [← hmap, if_neg hxk]⟩⟩

theorem setPhase_mem {k : Nat} {ph : Phase} {es : List QueryTableEntry}
    {e' : QueryTableEntry} (h : e' ∈ setPhase k ph es) :
    ∃ x ∈ es, (¬x.key = k ∧ e' = x) ∨ (x.key = k ∧ e' = { x with phase := ph }) := by
  rcases List.mem_map.mp h with ⟨x, hx, hmap⟩
  by_cases hxk : x.key = k
  · exact ⟨x, hx, Or.inr ⟨hxk, by rw [← hmap, if_pos hxk]⟩⟩
  · exact ⟨x, hx, Or.inl ⟨hxk, by rw [← hmap, if_neg hxk]⟩⟩

theorem setStatus_id (k : Nat) (st : QueryStatus) :
    ∀ es : List QueryTableEntry, (∀ y ∈ es, y.key ≠ k) → setStatus k st es = es := by
  intro es
  induction es with
  | nil => intro _; rfl
  | cons e es ih =>
    intro h
    rw [setStatus_cons, if_neg (h e (List.mem_cons_self _ _)),
      ih (fun y hy => h y (List.mem_cons_of_mem _ hy))]

theorem countAvailable_setStatus_giveUp {k : Nat} :
    ∀ es : List QueryTableEntry, (es.map (fun e => e.key)).Nodup →
      ∀ e : QueryTableEntry, findEntry k es = some e →
        e.status = QueryStatus.available →
        countAvailable (setStatus k QueryStatus.giveUp es) + 1 = countAvailable es := by
  intro es
  induction es with
  | nil =>
    intro _ e he
    rw [findEntry_nil] at he
    cases he
  | cons x es ih =>
    intro hnd e he hav
    simp only [List.map_cons, List.nodup_cons] at hnd
    by_cases hk : x.key = k
    · rw [findEntry_cons_self es hk] at he
      have hex : e = x := (Option.some.inj he).symm
      subst hex
      have hrest : ∀ y ∈ es, y.key ≠ k := by
        intro y hy hyk
        have hmem : y.key ∈ es.map (fun e => e.key) := List.mem_map_of_mem _ hy
        rw [hyk, ← hk] at hmem
        exact hnd.1 hmem
      rw [setStatus_cons, if_pos hk, setStatus_id k QueryStatus.giveUp es hrest,
        countAvailable_cons, countAvailable_cons, hav]
      simp only [if_true]
      simp only [show (({ e with status := QueryStatus.giveUp } : QueryTableEntry).status =
        QueryStatus.available) = False by simp]
      simp only [if_false]
      omega
    · rw [findEntry_cons_ne es hk] at he
      rw [setStatus_cons, if_neg hk, countAvailable_cons, countAvailable_cons]
      have := ih hnd.2 e he hav
      omega

theorem RemoveLoggedQuery_entries (k : Nat) (s : ScheduleState) :
    (RemoveLoggedQuery k s).entries = s.entries.filter (fun e => e.key ≠ k) := rfl

theorem filterKey_id (k : Nat) (es : List QueryTableEntry)
    (h : ∀ y ∈ es, y.key ≠ k) :
    es.filter (fun e => e.key ≠ k) = es := by
  refine List.filter_eq_self.mpr ?_
  intro a ha
  simpa using h a ha

theorem countAvailable_removeK {k : Nat} :
    ∀ es : List QueryTableEntry, (es.map (fun e => e.key)).Nodup →
      ∀ e : QueryTableEntry, findEntry k es = some e →
        e.status = QueryStatus.available →
        countAvailable (es.filter (fun e => e.key ≠ k)) + 1 = countAvailable es := by
  intro es
  induction es with
  | nil =>
    intro _ e he
    rw [findEntry_nil] at he
    cases he
  | cons x es ih =>
    intro hnd e he hav
    simp only [List.map_cons, List.nodup_cons] at hnd
    by_cases hk : x.key = k
    · rw [findEntry_cons_self es hk] at he
      have hex : e = x := (Option.some.inj he).symm
      subst hex
      have hrest : ∀ y ∈ es, y.key ≠ k := by
        intro y hy hyk
        have hmem : y.key ∈ es.map (fun e => e.key) := List.mem_map_of_mem _ hy
        rw [hyk, ← hk] at hmem
        exact hnd.1 hmem
      have hstep : (e :: es).filter (fun e => e.key ≠ k) =
          es.filter (fun e => e.key ≠ k) := by
        simp [List.filter_cons, hk]
      rw [hstep, filterKey_id k es hrest, countAvailable_cons, hav]
      simp only [if_true]
      omega
    · rw [findEntry_cons_ne es hk] at he
      have hstep : (x :: es).filter (fun e => e.key ≠ k) =
          x :: es.filter (fun e => e.key ≠ k) := by
        simp [List.filter_cons, hk]
      rw [hstep, countAvailable_cons, countAvailable_cons]
      have := ih hnd.2 e he hav
      omega

theorem nodupKeys_filter (k : Nat) (es : List QueryTableEntry)
    (h : (es.map (fun e => e.key)).Nodup) :
    ((es.filter (fun e => e.key ≠ k)).map (fun e => e.key)).Nodup := by
  have hsub : (es.filter (fun e => e.key ≠ k)).Sublist es := List.filter_sublist es
  exact List.Nodup.sublist (hsub.map (fun e => e.key)) h

theorem countAvailable_append (l1 l2 : List QueryTableEntry) :
    countAvailable (l1 ++ l2) = countAvailable l1 + countAvailable l2 := by
  simp [countAvailable, List.filter_append]

theorem LogQuery_entries (k : Nat) (affected : List Nat) (s : ScheduleState) :
    (LogQuery k affected s).entries = s.entries ++
      [{ key := k, status := QueryStatus.waiting, arrivalOrder := s.nextArrival,
         affected_tables := affected, phase := Phase.polling }] := rfl

theorem LogQuery_runningQuery (k : Nat) (affected : List Nat) (s : ScheduleState) :
    (LogQuery k affected s).runningQuery = s.runningQuery := rfl

theorem LogQuery_lockOwner (k : Nat) (affected : List Nat) (s : ScheduleState) :
    (LogQuery k affected s).lockOwner = s.lockOwner := rfl

theorem registerApply_schedInv {cap : Nat} {depIdx : Nat → Option (List Nat)}
    (k : Nat) (affected : List Nat) {s : ScheduleState}
    (h : SchedInv cap depIdx s) : SchedInv cap depIdx (registerApply cap k affected s) := by
  by_cases hfresh : ∀ e ∈ s.entries, e.key ≠ k
  · simp only [registerApply, if_pos hfresh]
    apply Reschedule_schedInv
    have hnew : ∀ x : QueryTableEntry, x.status = QueryStatus.waiting →
        countAvailable [x] = 0 := by
      intro x hst
      rw [countAvailable_cons, countAvailable_nil, hst]
      simp
    refine ⟨?_, ?_, ?_, ?_, ?_⟩
    · rw [LogQuery_runningQuery k affected s, LogQuery_entries k affected s,
        countAvailable_append, hnew _ rfl, h.running_eq]
      simp
    · rw [LogQuery_entries k affected s, countAvailable_append, hnew _ rfl]
      simpa using h.le_cap
    · rw [LogQuery_entries k affected s, List.map_append]
      refine List.nodup_append.mpr ⟨h.nodupKeys, by simp, ?_⟩
      intro a ha hb
      simp only [List.map_cons, List.map_nil, List.mem_singleton] at hb
      subst hb
      rcases List.mem_map.mp ha with ⟨y, hy, hyk⟩
      exact hfresh y hy hyk
    · intro e' he'
      rw [LogQuery_entries k affected s] at he'
      rcases List.mem_append.mp he' with he1 | he2
      · exact h.noStatusRunning e' he1
      · simp only [List.mem_singleton] at he2
        subst he2
        simp
    · intro e' he' hph
      rw [LogQuery_entries k affected s] at he'
      rcases List.mem_append.mp he' with he1 | he2
      · exact h.execLocks e' he1 hph
      · simp only [List.mem_singleton] at he2
        subst he2
        simp at hph
  · simp only [registerApply, if_neg hfresh]
    exact h

theorem pollApply_schedInv {cap : Nat} {depIdx : Nat → Option (List Nat)}
    (k : Nat) {s : ScheduleState} (h : SchedInv cap depIdx s) :
    SchedInv cap depIdx (pollApply cap k s) := by
  cases hfe : findEntry k s.entries with
  | none =>
    simp only [pollApply, hfe]
    exact h
  | some e =>
    simp only [pollApply, hfe]
    by_cases hc : s.runningQuery = 0 ∧ e.status ≠ QueryStatus.available
    · rw [if_pos hc]
      exact Reschedule_schedInv h
    · rw [if_neg hc]
      exact h

theorem lockApply_schedInv {cap : Nat} {depIdx : Nat → Option (List Nat)}
    (k : Nat) {s : ScheduleState} (h : SchedInv cap depIdx s) :
    SchedInv cap depIdx (lockApply cap depIdx k s) := by
  cases hfe : findEntry k s.entries with
  | none =>
    simp only [lockApply, hfe]
    exact h
  | some e =>
    by_cases hc : e.status = QueryStatus.available ∧ e.phase = Phase.polling
    · cases hla : lockAll k depIdx e.affected_tables [] s.lockOwner with
      | success newly' owner' =>
        simp only [lockApply, hfe, if_pos hc, hla]
        rcases lockAll_success_inv k depIdx e.affected_tables [] s.lockOwner s.lockOwner
          (ownerInv_nil k s.lockOwner) newly' owner' hla with ⟨hoi, _, hflat, _⟩
        refine ⟨?_, ?_, ?_, ?_, ?_⟩
        · show s.runningQuery = (countAvailable (setPhase k Phase.execing s.entries) : Int)
          rw [countAvailable_setPhase]
          exact h.running_eq
        · show countAvailable (setPhase k Phase.execing s.entries) ≤ cap
          rw [countAvailable_setPhase]
          exact h.le_cap
        · show ((setPhase k Phase.execing s.entries).map (fun e => e.key)).Nodup
          rw [setPhase_mapKey]
          exact h.nodupKeys
        · intro e' he' hr
          rcases setPhase_mem he' with ⟨x, hx, hd⟩
          rcases hd with ⟨_, rfl⟩ | ⟨hxk, rfl⟩
          · exact h.noStatusRunning e' hx hr
          · exact h.noStatusRunning x hx hr
        · intro e' he' hph
          rcases setPhase_mem he' with ⟨x, hx, hd⟩
          rcases hd with ⟨hxk, rfl⟩ | ⟨hxk, rfl⟩
          · have hx2 := h.execLocks e' hx hph
            refine ⟨hx2.1, ?_⟩
            intro t ht
            show owner' t = some e'.key
            have hown := hx2.2 t ht
            by_cases hmem : t ∈ newly'
            · rcases (hoi t).1 hmem with ⟨_, hnone⟩
              rw [hown] at hnone
              cases hnone
            · rw [(hoi t).2 hmem]
              exact hown
          · have hxe : x = e := nodup_key_eq h.nodupKeys hx (findEntry_mem hfe).1
              (by rw [hxk, (findEntry_mem hfe).2])
            subst hxe
            refine ⟨hc.1, ?_⟩
            intro t ht
            show owner' t = some x.key
            rw [(findEntry_mem hfe).2]
            exact hflat t ht
      | retreat owner' =>
        simp only [lockApply, hfe, if_pos hc, hla]
        apply Reschedule_schedInv
        have hret : ∀ t, owner' t = s.lockOwner t :=
          lockAll_retreat_owner k depIdx e.affected_tables [] s.lockOwner s.lockOwner
            (ownerInv_nil _ _) owner' hla
        have hcnt := countAvailable_setStatus_giveUp s.entries h.nodupKeys e hfe hc.1
        have hre := h.running_eq
        have hlc := h.le_cap
        refine ⟨?_, ?_, ?_, ?_, ?_⟩
        · show s.runningQuery - 1 =
            (countAvailable (setStatus k QueryStatus.giveUp s.entries) : Int)
          omega
        · show countAvailable (setStatus k QueryStatus.giveUp s.entries) ≤ cap
          omega
        · show ((setStatus k QueryStatus.giveUp s.entries).map (fun e => e.key)).Nodup
          rw [setStatus_mapKey]
          exact h.nodupKeys
        · intro e' he' hr
          rcases setStatus_mem he' with ⟨x, hx, hd⟩
          rcases hd with ⟨_, rfl⟩ | ⟨hxk, rfl⟩
          · exact h.noStatusRunning e' hx hr
          · simp at hr
        · intro e' he' hph
          rcases setStatus_mem he' with ⟨x, hx, hd⟩
          rcases hd with ⟨hxk, rfl⟩ | ⟨hxk, rfl⟩
          · have hx2 := h.execLocks e' hx hph
            refine ⟨hx2.1, ?_⟩
            intro t ht
            show owner' t = some e'.key
            rw [hret t]
            exact hx2.2 t ht
          · have hxe : x = e := nodup_key_eq h.nodupKeys hx (findEntry_mem hfe).1
              (by rw [hxk, (findEntry_mem hfe).2])
            have hph2 : x.phase = Phase.execing := hph
            rw [hxe, hc.2] at hph2
            cases hph2
    · simp only [lockApply, hfe, if_neg hc]
      exact h

theorem finishApply_schedInv {cap : Nat} {depIdx : Nat → Option (List Nat)}
    (k : Nat) {s : ScheduleState} (h : SchedInv cap depIdx s) :
    SchedInv cap depIdx (finishApply cap k s) := by
  cases hfe : findEntry k s.entries with
  | none =>
    simp only [finishApply, hfe]
    exact h
  | some e =>
    by_cases hph : e.phase = Phase.execing
    · simp only [finishApply, hfe, if_pos hph]
      apply Reschedule_schedInv
      have hav := (h.execLocks e (findEntry_mem hfe).1 hph).1
      have hcnt := countAvailable_removeK s.entries h.nodupKeys e hfe hav
      have hre := h.running_eq
      have hlc := h.le_cap
      refine ⟨?_, ?_, ?_, ?_, ?_⟩
      · show s.runningQuery - 1 =
          (countAvailable (s.entries.filter (fun e => e.key ≠ k)) : Int)
        omega
      · show countAvailable (s.entries.filter (fun e => e.key ≠ k)) ≤ cap
        omega
      · show ((s.entries.filter (fun e => e.key ≠ k)).map (fun e => e.key)).Nodup
        exact nodupKeys_filter k s.entries h.nodupKeys
      · intro e' he' hr
        exact h.noStatusRunning e' (List.mem_of_mem_filter he') hr
      · intro e' he' hph'
        exact h.execLocks e' (List.mem_of_mem_filter he') hph'
    · simp only [finishApply, hfe, if_neg hph]
      exact h

theorem xactEndApply_schedInv {cap : Nat} {depIdx : Nat → Option (List Nat)}
    (k : Nat) {s : ScheduleState} (h : SchedInv cap depIdx s) :
    SchedInv cap depIdx (xactEndApply k s) := by
  by_cases hab : ∀ e ∈ s.entries, e.key ≠ k
  · simp only [xactEndApply, if_pos hab]
    refine ⟨h.running_eq, h.le_cap, h.nodupKeys, h.noStatusRunning, ?_⟩
    intro e' he' hph
    have he2 := h.execLocks e' he' hph
    refine ⟨he2.1, ?_⟩
    intro t ht
    have hown := he2.2 t ht
    show (if s.lockOwner t = some k then none else s.lockOwner t) = some e'.key
    have hne : e'.key ≠ k := hab e' he'
    rw [if_neg (by rw [hown]; intro hco; exact hne (Option.some.inj hco))]
    exact hown
  · simp only [xactEndApply, if_neg hab]
    exact h

theorem step_schedInv {cap : Nat} {depIdx : Nat → Option (List Nat)}
    {s s' : ScheduleState} (h : SchedInv cap depIdx s) (hs : Step cap depIdx s s') :
    SchedInv cap depIdx s' := by
  cases hs with
  | register k affected => exact registerApply_schedInv k affected h
  | poll k => exact pollApply_schedInv k h
  | lockAttempt k => exact lockApply_schedInv k h
  | finish k => exact finishApply_schedInv k h
  | xactEnd k => exact xactEndApply_schedInv k h

theorem initState_schedInv (cap : Nat) (depIdx : Nat → Option (List Nat)) :
    SchedInv cap depIdx initState := by
  refine ⟨?_, ?_, ?_, ?_, ?_⟩ <;> simp [initState, countAvailable]

theorem reachable_schedInv {cap : Nat} {depIdx : Nat → Option (List Nat)}
    {s : ScheduleState} (h : Reachable cap depIdx s) : SchedInv cap depIdx s := by
  have h' : Relation.ReflTransGen (Step cap depIdx) initState s := h
  clear h
  induction h' with
  | refl => exact initState_schedInv cap depIdx
  | tail h1 h2 ih => exact step_schedInv ih h2

theorem map_phase_map (f : QueryTableEntry → QueryTableEntry)
    (hf : ∀ e, (f e).phase = e.phase) (es : List QueryTableEntry) :
    (es.map f).map (fun e => e.phase) = es.map (fun e => e.phase) := by
  induction es with
  | nil => rfl
  | cons e es ih => simp only [List.map_cons, hf, ih]

theorem setStatus_mapPhase (k : Nat) (st : QueryStatus) (es : List QueryTableEntry) :
    (setStatus k st es).map (fun e => e.phase) = es.map (fun e => e.phase) :=
  map_phase_map _ (fun e => by by_cases h : e.key = k <;> simp [h]) es

theorem mem_filterKey_ne {k : Nat} {es : List QueryTableEntry} {x : QueryTableEntry}
    (h : x ∈ es.filter (fun e => e.key ≠ k)) : x.key ≠ k := by
  have h2 := (List.mem_filter.mp h).2
  simpa using h2

theorem mutexState_reachable : Reachable 1 depIdxW mutexState :=
  Relation.ReflTransGen.tail
    (Relation.ReflTransGen.tail Relation.ReflTransGen.refl
      (Step.register initState 0 [10]))
    (Step.lockAttempt (registerApply 1 0 [10] initState) 0)

/-- C1: when the non-blocking lock attempt fails for some base table
(pg_ivm.c lines 676-692), the protocol releases exactly the locks acquired in
the current pass: the resulting lock-manager state agrees pointwise with the
state at the start of the pass, so locks held before the pass are never
released; the critical section then sets the record's status to
`QUERY_GIVE_UP`, decrements `runningQuery` by one, and invokes `Reschedule`;
and no phase changes, i.e. the backend stays in the `polling` phase of the
wait loop, which `goto waiting` re-enters at step 1. -/
theorem lock_retreat_exact (cap : Nat) (depIdx : Nat → Option (List Nat)) (k : Nat)
    (s : ScheduleState) (e : QueryTableEntry) (owner' : Nat → Option Nat)
    (he : findEntry k s.entries = some e) (hav : e.status = QueryStatus.available)
    (hph : e.phase = Phase.polling)
    (hfail : lockAll k depIdx e.affected_tables [] s.lockOwner = PassResult.retreat owner') :
    (∀ t, owner' t = s.lockOwner t) ∧
    lockApply cap depIdx k s =
      Reschedule cap
        { runningQuery := s.runningQuery - 1,
          entries := setStatus k QueryStatus.giveUp s.entries,
          lockOwner := owner', nextArrival := s.nextArrival } ∧
    (setStatus k QueryStatus.giveUp s.entries).map (fun e => e.phase) =
      s.entries.map (fun e => e.phase) := by
  refine ⟨?_, ?_, ?_⟩
  · exact lockAll_retreat_owner k depIdx e.affected_tables [] s.lockOwner s.lockOwner
      (ownerInv_nil _ _) owner' hfail
  · simp only [lockApply, he, if_pos (And.intro hav hph), hfail]
  · exact setStatus_mapPhase k QueryStatus.giveUp s.entries

/-- Witness for C1: in `retreatState` the lock on table 5 is held by another
backend, so query 0's pass retreats; the theorem's hypotheses hold by
computation and its conclusion is obtained at this concrete input. -/
theorem lock_retreat_exact_witness :
    (findEntry 0 retreatState.entries = some retreatEntry ∧
     retreatEntry.status = QueryStatus.available ∧
     retreatEntry.phase = Phase.polling ∧
     lockAll 0 depIdxW retreatEntry.affected_tables [] retreatState.lockOwner =
       PassResult.retreat (releaseAll [] retreatState.lockOwner)) ∧
    ((∀ t, releaseAll [] retreatState.lockOwner t = retreatState.lockOwner t) ∧
     lockApply 1 depIdxW 0 retreatState =
       Reschedule 1
         { runningQuery := retreatState.runningQuery - 1,
           entries := setStatus 0 QueryStatus.giveUp retreatState.entries,
           lockOwner := releaseAll [] retreatState.lockOwner,
           nextArrival := retreatState.nextArrival } ∧
     (setStatus 0 QueryStatus.giveUp retreatState.entries).map (fun e => e.phase) =
       retreatState.entries.map (fun e => e.phase)) :=
  ⟨⟨rfl, rfl, rfl, rfl⟩,
   lock_retreat_exact 1 depIdxW 0 retreatState retreatEntry
     (releaseAll [] retreatState.lockOwner) rfl rfl rfl rfl⟩

/-- C2: in every state observable outside the critical section — i.e. every
state reachable from the initialized shared memory through the hooks' critical
sections, in particular right after registration plus reschedule and right
after each cleanup path of the execution bracket — the counter satisfies
0 <= runningQuery <= MAX_CONCURRENT_QUERY (the bound asserted at pg_ivm.c
lines 624-625, 725-726 and 745-746). -/
theorem runningQuery_bounds (cap : Nat) (depIdx : Nat → Option (List Nat))
    (s : ScheduleState) (h : Reachable cap depIdx s) :
    0 ≤ s.runningQuery ∧ s.runningQuery ≤ (cap : Int) := by
  have hi := reachable_schedInv h
  have h1 := hi.running_eq
  have h2 := hi.le_cap
  omega

/-- Witness for C2: the bounds hold at the concrete reachable state
`mutexState` (register query 0, then its successful lock attempt, cap 1). -/
theorem runningQuery_bounds_witness :
    0 ≤ mutexState.runningQuery ∧ mutexState.runningQuery ≤ ((1 : Nat) : Int) :=
  runningQuery_bounds 1 depIdxW mutexState mutexState_reachable

/-- C7: in every reachable state, two registered queries that are both
mid-execution (phase `execing`, the window in which a query is Running) and
whose transitive base-table dependency sets share a table are the same query:
a query enters execution only holding the exclusive lock on every table of its
dependency set, and the lock manager grants each exclusive lock to one backend,
so no two queries with overlapping dependency sets run concurrently. -/
theorem overlapping_running_mutex (cap : Nat) (depIdx : Nat → Option (List Nat))
    (s : ScheduleState) (h : Reachable cap depIdx s)
    (a b : QueryTableEntry) (ha : a ∈ s.entries) (hb : b ∈ s.entries)
    (hpa : a.phase = Phase.execing) (hpb : b.phase = Phase.execing)
    (t : Nat) (hta : t ∈ flatDeps depIdx a.affected_tables)
    (htb : t ∈ flatDeps depIdx b.affected_tables) : a = b := by
  have hi := reachable_schedInv h
  have h1 := (hi.execLocks a ha hpa).2 t hta
  have h2 := (hi.execLocks b hb hpb).2 t htb
  rw [h1] at h2
  exact nodup_key_eq hi.nodupKeys ha hb (Option.some.inj h2)

/-- Witness for C7: in the reachable state `mutexState`, query 0 is executing
and holds table 5 of its dependency set; the theorem applied to the pair
(0, 0) at that state yields the (only possible) conclusion. -/
theorem overlapping_running_mutex_witness :
    Reachable 1 depIdxW mutexState ∧
    mutexEntry ∈ mutexState.entries ∧
    mutexEntry.phase = Phase.execing ∧
    (5 : Nat) ∈ flatDeps depIdxW mutexEntry.affected_tables ∧
    mutexEntry = mutexEntry :=
  ⟨mutexState_reachable, by decide, rfl, by decide,
   overlapping_running_mutex 1 depIdxW mutexState mutexState_reachable
     mutexEntry mutexEntry (by decide) (by decide) rfl rfl 5 (by decide) (by decide)⟩

/-- C4: one iteration of the poll loop that observes `runningQuery = 0` while
this query's status is not Available triggers a `Reschedule` before sleeping
again (pg_ivm.c lines 641-647); since the reschedule pass clears GaveUp
records back to Waiting and admits Waiting records while the counter is below
the cap, some query's status is Available in the resulting state — so when
all waiters have given up and the counter has dropped to 0, a Waiting query
becomes Available within one poll iteration and the system cannot stay asleep. -/
theorem poll_self_heal (cap : Nat) (k : Nat)
    (s : ScheduleState) (e : QueryTableEntry)
    (hcap : 1 ≤ cap)
    (he : findEntry k s.entries = some e)
    (hr0 : s.runningQuery = 0)
    (hna : e.status ≠ QueryStatus.available)
    (hnr : e.status ≠ QueryStatus.running) :
    pollApply cap k s = Reschedule cap s ∧
    ∃ e' ∈ (pollApply cap k s).entries, e'.status = QueryStatus.available := by
  have heq : pollApply cap k s = Reschedule cap s := by
    simp only [pollApply, he, if_pos (And.intro hr0 hna)]
  refine ⟨heq, ?_⟩
  rw [heq]
  have hwg : e.status = QueryStatus.waiting ∨ e.status = QueryStatus.giveUp := by
    cases h1 : e.status with
    | waiting => exact Or.inl rfl
    | available => exact absurd h1 hna
    | running => exact absurd h1 hnr
    | giveUp => exact Or.inr rfl
  have hwait := clearGiveUps_exists_waiting s.entries e (findEntry_mem he).1 hwg
  rw [Reschedule_entries]
  exact admissionPass_exists_avail cap (clearGiveUps s.entries) s.runningQuery
    (by omega) hwait

/-- Witness for C4: in `healState` the only query has given up and nothing is
running; the poll iteration of query 3 forces a reschedule and the query
becomes Available. -/
theorem poll_self_heal_witness :
    (1 ≤ 1 ∧ findEntry 3 healState.entries = some healEntry ∧
     healState.runningQuery = 0 ∧
     healEntry.status ≠ QueryStatus.available ∧
     healEntry.status ≠ QueryStatus.running) ∧
    (pollApply 1 3 healState = Reschedule 1 healState ∧
     ∃ e' ∈ (pollApply 1 3 healState).entries, e'.status = QueryStatus.available) :=
  ⟨⟨le_refl 1, rfl, rfl, by decide, by decide⟩,
   poll_self_heal 1 3 healState healEntry (le_refl 1) rfl rfl
     (by decide) (by decide)⟩

/-- C5: during lock acquisition, a base table whose exclusive lock this
backend already holds is skipped rather than re-attempted (the `LockHeldByMe`
branch, pg_ivm.c lines 668-671): if every conflict in the transitive
dependency set is with the query's own prior locks, the pass succeeds (it
never blocks or retreats against a lock it itself holds), the list of newly
acquired tables has no duplicates (no table is ever double-locked), and a
table held before the pass is not re-acquired and is still held afterwards. -/
theorem self_lock_skip (q : Nat) (depIdx : Nat → Option (List Nat))
    (affected : List Nat) (owner : Nat → Option Nat)
    (hfree : ∀ t ∈ flatDeps depIdx affected, owner t = some q ∨ owner t = none) :
    ∃ newly' owner',
      lockAll q depIdx affected [] owner = PassResult.success newly' owner' ∧
      newly'.Nodup ∧
      (∀ t, owner t = some q → t ∉ newly' ∧ owner' t = some q) := by
  rcases lockAll_success_selfFree q depIdx affected [] owner hfree with ⟨newly', owner', hs⟩
  rcases lockAll_success_inv q depIdx affected [] owner owner (ownerInv_nil q owner)
    newly' owner' hs with ⟨hoi, _, _, hnd⟩
  refine ⟨newly', owner', hs, hnd List.nodup_nil, ?_⟩
  intro t hq
  constructor
  · intro hmem
    rcases (hoi t).1 hmem with ⟨_, hnone⟩
    rw [hq] at hnone
    cases hnone
  · by_cases hmem : t ∈ newly'
    · exact ((hoi t).1 hmem).1
    · rw [(hoi t).2 hmem]
      exact hq

/-- Witness for C5: backend 0 already holds the lock on table 5, the only
base table of its dependency set; the pass succeeds without touching it. -/
theorem self_lock_skip_witness :
    (∀ t ∈ flatDeps depIdxW [10], selfHeldOwner t = some 0 ∨ selfHeldOwner t = none) ∧
    ∃ newly' owner',
      lockAll 0 depIdxW [10] [] selfHeldOwner = PassResult.success newly' owner' ∧
      newly'.Nodup ∧
      (∀ t, selfHeldOwner t = some 0 → t ∉ newly' ∧ owner' t = some 0) :=
  ⟨by decide, self_lock_skip 0 depIdxW [10] selfHeldOwner (by decide)⟩

theorem pg_hook_executor_run_gate_eq (cap : Nat) (sourceText : String) (k : Nat)
    (bodyFails : Bool) (b : BackendState) (s : ScheduleState)
    (hsrc : sourceText ≠ "") (hpar : b.isParallelWorker = false)
    (hut : b.isUtility = false) (hnest : b.nesting_level = 0)
    (hfp : b.full_process ≠ 0) :
    pg_hook_executor_run cap sourceText k bodyFails b s =
      ({ b with full_process := b.full_process - 1 },
       Reschedule cap
         { runningQuery := s.runningQuery - 1,
           entries := s.entries.filter (fun e => e.key ≠ k),
           lockOwner := s.lockOwner, nextArrival := s.nextArrival },
       bodyFails) := by
  have harith : b.nesting_level + 1 - 1 = b.nesting_level := by omega
  have hee : enable_enforce b.isParallelWorker (b.nesting_level + 1 - 1) b.isUtility
      = true := by
    rw [harith, hpar, hut, hnest]
    decide
  have hgate : ¬sourceText = "" ∧
      enable_enforce b.isParallelWorker (b.nesting_level + 1 - 1) b.isUtility = true ∧
      b.full_process ≠ 0 := ⟨hsrc, hee, hfp⟩
  cases bodyFails with
  | true =>
    simp only [pg_hook_executor_run, if_pos rfl]
    rw [if_pos hgate, harith, if_pos trivial]
    rfl
  | false =>
    simp only [pg_hook_executor_run]
    rw [if_neg (by simp : ¬(false = true)), if_pos hgate, harith]
    rfl

/-- C3 (amended): for a query that entered enforcement (nonempty source text,
not a parallel worker, not a utility command, top nesting level, and a
`full_process` credit from its enforced `ExecutorStart`), the cleanup of
`pg_hook_executor_run` runs on normal completion and on an execution error
alike, before the error continues propagating: it decrements `full_process`,
deregisters the query from the registry, decrements `runningQuery`, and
triggers a reschedule, and the wrapped error (if any) is passed through
unchanged. The cleanup does not release the table locks acquired for the
pass — the lock-manager state is untouched; their release is left to the
surrounding transaction machinery, outside the bracket. -/
theorem executor_run_cleanup (cap : Nat) (sourceText : String) (k : Nat)
    (bodyFails : Bool) (b : BackendState) (s : ScheduleState)
    (hsrc : sourceText ≠ "") (hpar : b.isParallelWorker = false)
    (hut : b.isUtility = false) (hnest : b.nesting_level = 0)
    (hfp : b.full_process ≠ 0) :
    pg_hook_executor_run cap sourceText k bodyFails b s =
      ({ b with full_process := b.full_process - 1 },
       Reschedule cap
         { runningQuery := s.runningQuery - 1,
           entries := s.entries.filter (fun e => e.key ≠ k),
           lockOwner := s.lockOwner, nextArrival := s.nextArrival },
       bodyFails) ∧
    (∀ t, (pg_hook_executor_run cap sourceText k bodyFails b s).2.1.lockOwner t =
      s.lockOwner t) ∧
    (∀ e ∈ (pg_hook_executor_run cap sourceText k bodyFails b s).2.1.entries,
      e.key ≠ k) ∧
    (pg_hook_executor_run cap sourceText k bodyFails b s).2.2 = bodyFails := by
  have heq := pg_hook_executor_run_gate_eq cap sourceText k bodyFails b s
    hsrc hpar hut hnest hfp
  refine ⟨heq, ?_, ?_, ?_⟩
  · intro t
    rw [heq, Reschedule_lockOwner]
  · intro e he
    rw [heq] at he
    rcases Reschedule_mem cap _ e he with ⟨x, hx, hkey, _⟩
    rw [hkey]
    exact mem_filterKey_ne hx
  · rw [heq]

/-- Counterexample for C3 as stated: a full concrete trace — an enforced
`ExecutorStart` of query 7 (affected table 10, base table 5), a successful
lock attempt acquiring table 5 in the pass, then `pg_hook_executor_run` with
the wrapped execution raising an error. The cleanup runs (the registry is
empty and the counter is back to 0, the error propagates), yet the lock on
table 5 acquired in the pass is still held — the claim's "releases the
per-pass table locks" is false on the code: no release call exists on either
cleanup path of `pg_hook_executor_run`. -/
theorem executor_run_no_release_cex :
    cexStart.1.full_process = 1 ∧
    cexLocked.lockOwner 5 = some 7 ∧
    cexRun.2.1.entries = [] ∧
    cexRun.2.1.runningQuery = 0 ∧
    cexRun.2.2 = true ∧
    cexRun.2.1.lockOwner 5 = some 7 := by
  refine ⟨rfl, rfl, ?_, ?_, rfl, rfl⟩ <;> decide

/-- Witness for C3 (amended): the amended cleanup equations at the concrete
trace state `cexLocked` with backend `cexStart.1`. -/
theorem executor_run_cleanup_witness :
    ("q" ≠ "" ∧ cexStart.1.isParallelWorker = false ∧ cexStart.1.isUtility = false ∧
     cexStart.1.nesting_level = 0 ∧ cexStart.1.full_process ≠ 0) ∧
    (pg_hook_executor_run 2 "q" 7 true cexStart.1 cexLocked =
      ({ cexStart.1 with full_process := cexStart.1.full_process - 1 },
       Reschedule 2
         { runningQuery := cexLocked.runningQuery - 1,
           entries := cexLocked.entries.filter (fun e => e.key ≠ 7),
           lockOwner := cexLocked.lockOwner, nextArrival := cexLocked.nextArrival },
       true) ∧
     (∀ t, (pg_hook_executor_run 2 "q" 7 true cexStart.1 cexLocked).2.1.lockOwner t =
       cexLocked.lockOwner t) ∧
     (∀ e ∈ (pg_hook_executor_run 2 "q" 7 true cexStart.1 cexLocked).2.1.entries,
       e.key ≠ 7) ∧
     (pg_hook_executor_run 2 "q" 7 true cexStart.1 cexLocked).2.2 = true) :=
  ⟨⟨by decide, rfl, rfl, rfl, by decide⟩,
   executor_run_cleanup 2 "q" 7 true cexStart.1 cexLocked (by decide) rfl rfl rfl
     (by decide)⟩

/-- C6: the scheduler is never entered for a utility command, for a nested
re-entrant execution (nesting level greater than zero), or in a parallel
worker: `enable_enforce` (pg_ivm.c line 46) is false, so
`pg_hook_execution_start` returns right after the standard executor start —
no registration, no admission wait, no lock acquisition, no `full_process`
credit; enforcement is entered only by top-level non-utility queries. -/
theorem enforcement_gate (cap : Nat) (sourceText : String) (eflags : Nat) (k : Nat)
    (affected : List Nat) (b : BackendState) (s : ScheduleState)
    (h : b.isParallelWorker = true ∨ b.nesting_level ≠ 0 ∨ b.isUtility = true) :
    pg_hook_execution_start cap sourceText eflags k affected b s = (b, s) := by
  have hee : enable_enforce b.isParallelWorker b.nesting_level b.isUtility = false := by
    rcases h with h | h | h
    · rw [h]
      rfl
    · have h2 : (b.nesting_level == 0) = false := beq_eq_false_iff_ne.mpr h
      simp [enable_enforce, h2]
    · rw [h]
      simp [enable_enforce]
  simp only [pg_hook_execution_start]
  rw [if_pos (Or.inr (Or.inr hee))]

/-- Witness for C6: a utility-command backend is not registered and the state
is unchanged. -/
theorem enforcement_gate_witness :
    ((⟨0, 0, true, false⟩ : BackendState).isParallelWorker = true ∨
     (⟨0, 0, true, false⟩ : BackendState).nesting_level ≠ 0 ∨
     (⟨0, 0, true, false⟩ : BackendState).isUtility = true) ∧
    pg_hook_execution_start 1 "SELECT 1" 0 2 [10] ⟨0, 0, true, false⟩ initState =
      (⟨0, 0, true, false⟩, initState) :=
  ⟨Or.inr (Or.inr rfl),
   enforcement_gate 1 "SELECT 1" 0 2 [10] ⟨0, 0, true, false⟩ initState
     (Or.inr (Or.inr rfl))⟩

/-- C9: if the query's source text is the empty string, or the executor flags
contain `EXEC_FLAG_EXPLAIN_GENERIC` or `EXEC_FLAG_EXPLAIN_ONLY`,
`pg_hook_execution_start` returns immediately after the standard executor
start (pg_ivm.c lines 610-613): the query is never registered, never waits
for admission, and acquires no table locks — the backend and shared state are
returned unchanged. -/
theorem explain_or_empty_gate (cap : Nat) (sourceText : String) (eflags : Nat)
    (k : Nat) (affected : List Nat) (b : BackendState) (s : ScheduleState)
    (h : sourceText = "" ∨
      eflags &&& (EXEC_FLAG_EXPLAIN_GENERIC ||| EXEC_FLAG_EXPLAIN_ONLY) ≠ 0) :
    pg_hook_execution_start cap sourceText eflags k affected b s = (b, s) := by
  simp only [pg_hook_execution_start]
  rcases h with h | h
  · rw [if_pos (Or.inl h)]
  · rw [if_pos (Or.inr (Or.inl h))]

/-- Witness for C9: an EXPLAIN-only start (eflags bit 1) changes nothing. -/
theorem explain_or_empty_gate_witness :
    ((("SELECT 1" : String) = "" ∨
      (1 : Nat) &&& (EXEC_FLAG_EXPLAIN_GENERIC ||| EXEC_FLAG_EXPLAIN_ONLY) ≠ 0)) ∧
    pg_hook_execution_start 1 "SELECT 1" 1 2 [10] bInit initState = (bInit, initState) :=
  ⟨Or.inr (by decide),
   explain_or_empty_gate 1 "SELECT 1" 1 2 [10] bInit initState (Or.inr (by decide))⟩

/-- C8: the cleanup of `pg_hook_executor_run` runs only when the
`full_process` counter is nonzero, and then decrements it, while an enforced
`ExecutorStart` increments the counter exactly once; hence each registered
query is deregistered and `runningQuery` decremented at most once, even when
`ExecutorRun` is invoked repeatedly for a single `ExecutorStart` (the
repeated-evaluation artifact that `full_process` exists to solve, pg_ivm.c
lines 68-75): a run without a credit returns the backend and shared state
completely unchanged, while a run with a credit consumes it and removes the
query's record. -/
theorem full_process_once (cap : Nat) (sourceText : String) (eflags : Nat) (k : Nat)
    (affected : List Nat) (bodyFails : Bool) (b : BackendState) (s : ScheduleState)
    (hsrc : sourceText ≠ "")
    (hfl : eflags &&& (EXEC_FLAG_EXPLAIN_GENERIC ||| EXEC_FLAG_EXPLAIN_ONLY) = 0)
    (hpar : b.isParallelWorker = false) (hut : b.isUtility = false)
    (hnest : b.nesting_level = 0) :
    (pg_hook_execution_start cap sourceText eflags k affected b s).1.full_process =
      b.full_process + 1 ∧
    (b.full_process = 0 →
      pg_hook_executor_run cap sourceText k bodyFails b s = (b, s, bodyFails)) ∧
    (b.full_process ≠ 0 →
      (pg_hook_executor_run cap sourceText k bodyFails b s).1.full_process =
        b.full_process - 1 ∧
      ∀ e ∈ (pg_hook_executor_run cap sourceText k bodyFails b s).2.1.entries,
        e.key ≠ k) := by
  refine ⟨?_, ?_, ?_⟩
  · have hee : enable_enforce b.isParallelWorker b.nesting_level b.isUtility = true := by
      rw [hpar, hut, hnest]
      decide
    have hcond : ¬(sourceText = "" ∨
        eflags &&& (EXEC_FLAG_EXPLAIN_GENERIC ||| EXEC_FLAG_EXPLAIN_ONLY) ≠ 0 ∨
        enable_enforce b.isParallelWorker b.nesting_level b.isUtility = false) := by
      intro hco
      rcases hco with hco | hco | hco
      · exact hsrc hco
      · exact hco hfl
      · rw [hee] at hco
        cases hco
    simp only [pg_hook_execution_start]
    rw [if_neg hcond]
  · intro hfp0
    have harith : b.nesting_level + 1 - 1 = b.nesting_level := by omega
    have hng : ¬(¬sourceText = "" ∧
        enable_enforce b.isParallelWorker (b.nesting_level + 1 - 1) b.isUtility = true ∧
        b.full_process ≠ 0) := fun hco => hco.2.2 hfp0
    cases bodyFails with
    | true =>
      simp only [pg_hook_executor_run, if_pos rfl]
      rw [if_neg hng, harith, if_pos trivial]
    | false =>
      simp only [pg_hook_executor_run]
      rw [if_neg (by simp : ¬(false = true)), if_neg hng, harith]
  · intro hfp
    have heq := pg_hook_executor_run_gate_eq cap sourceText k bodyFails b s
      hsrc hpar hut hnest hfp
    rw [heq]
    refine ⟨rfl, ?_⟩
    intro e he
    rcases Reschedule_mem cap _ e he with ⟨x, hx, hkey, _⟩
    rw [hkey]
    exact mem_filterKey_ne hx

/-- Witness for C8: a backend holding exactly one `full_process` credit; the
start increments to 2, and the run with the credit consumes it and leaves no
record under the query's key. -/
theorem full_process_once_witness :
    (("r" : String) ≠ "" ∧
     (0 : Nat) &&& (EXEC_FLAG_EXPLAIN_GENERIC ||| EXEC_FLAG_EXPLAIN_ONLY) = 0 ∧
     (⟨0, 1, false, false⟩ : BackendState).isParallelWorker = false ∧
     (⟨0, 1, false, false⟩ : BackendState).isUtility = false ∧
     (⟨0, 1, false, false⟩ : BackendState).nesting_level = 0) ∧
    ((pg_hook_execution_start 1 "r" 0 4 [10] ⟨0, 1, false, false⟩ initState).1.full_process =
       (⟨0, 1, false, false⟩ : BackendState).full_process + 1 ∧
     ((⟨0, 1, false, false⟩ : BackendState).full_process = 0 →
       pg_hook_executor_run 1 "r" 4 false ⟨0, 1, false, false⟩ initState =
         (⟨0, 1, false, false⟩, initState, false)) ∧
     ((⟨0, 1, false, false⟩ : BackendState).full_process ≠ 0 →
       (pg_hook_executor_run 1 "r" 4 false ⟨0, 1, false, false⟩ initState).1.full_process =
         (⟨0, 1, false, false⟩ : BackendState).full_process - 1 ∧
       ∀ e ∈ (pg_hook_executor_run 1 "r" 4 false ⟨0, 1, false, false⟩ initState).2.1.entries,
         e.key ≠ 4)) :=
  ⟨⟨by decide, by decide, rfl, rfl, rfl⟩,
   full_process_once 1 "r" 0 4 [10] false ⟨0, 1, false, false⟩ initState
     (by decide) (by decide) rfl rfl rfl⟩

/-- C10: `pg_hook_process_utility` (pg_ivm.c lines 786-818) runs the wrapped
utility command with `isUtility = true`, and the `PG_FINALLY` block restores
`isUtility = false` on every exit path — the resulting backend is the body's
result with `isUtility` reset, and the body's error indication (including an
error raised by the utility command) is passed through after the restore, so
enforcement for subsequent top-level non-utility queries is re-enabled. -/
theorem process_utility_restores (body : BackendState → BackendState × Bool)
    (b : BackendState) :
    (pg_hook_process_utility body b).1.isUtility = false ∧
    (pg_hook_process_utility body b).1 =
      { (body { b with isUtility := true }).1 with isUtility := false } ∧
    (pg_hook_process_utility body b).2 = (body { b with isUtility := true }).2 :=
  ⟨rfl, rfl, rfl⟩
